import Mathlib

/-!
# Verification of the k12-ai-teaching-platform retrieval pipeline

Shallow embedding of the RAG retrieval core of the repository:

* `tokenize`, `computeScore` and `retrieveRelevantChunks`
  (server retrieval module, `src/unnamed/part_001`);
* `splitTextIntoChunks` (chunker module, `src/unnamed/part_002`).

Strings are modelled as `List Char` (JS strings over BMP code points,
which is all this code base manipulates).  JS `Array.prototype.sort`
(stable since ES2019) is modelled by `List.mergeSort`, which is stable.
The floating-point score `matchCount / Math.sqrt(termCount)` is carried
symbolically as the pair `(matchCount, termCount)`; its real value is
given by `scoreVal`, and float comparisons in the sort comparator are
modelled by the exact comparisons on those real values (`scoreLtB`,
`scoreEqB`).  The float threshold `chunkSize * 0.3` in the chunker is
modelled by the exact rational comparison `3 * chunkSize < 10 * i`.
JS `String.prototype.trim` is modelled on the ASCII whitespace
characters, the only ones this code base produces.
-/

namespace K12

/-- ASCII instance of the whitespace class removed by JS `trim`. -/
def jsWhitespace (c : Char) : Bool :=
  c = ' ' || c = '\t' || c = '\n' || c = '\r' || c = '\x0b' || c = '\x0c'

/-- JS `String.prototype.trim`: drop leading and trailing whitespace. -/
def jsTrim (l : List Char) : List Char :=
  ((l.dropWhile jsWhitespace).reverse.dropWhile jsWhitespace).reverse

/-- JS `s.slice(a, b)` for `0 ≤ a ≤ b` (the only way it is called here). -/
def jsSlice (l : List Char) (a b : Nat) : List Char :=
  (l.drop a).take (b - a)

/-- Maximal runs of characters satisfying `p`, with an accumulator for the
current (reversed) run.  Models global regex matching of `[c]+`-shaped
patterns such as `/[a-z]{2,}/g` (after a length filter) and `/\d+/g`. -/
def runsGo (p : Char → Bool) : List Char → List Char → List (List Char)
  | [], cur => if cur = [] then [] else [cur.reverse]
  | c :: rest, cur =>
    if p c then runsGo p rest (c :: cur)
    else if cur = [] then runsGo p rest []
    else cur.reverse :: runsGo p rest []

/-- Maximal runs of characters satisfying `p` in a string. -/
def runsOf (p : Char → Bool) (l : List Char) : List (List Char) :=
  runsGo p l []

/-- Replacement emitted for a run of `k` newlines under `/\n{3,}/g → "\n\n"`. -/
def newlineRun (k : Nat) : List Char :=
  if 3 ≤ k then ['\n', '\n'] else List.replicate k '\n'

/-- Worker for `collapseNewlines`; `k` counts the pending newline run. -/
def collapseGo : List Char → Nat → List Char
  | [], k => newlineRun k
  | c :: rest, k =>
    if c = '\n' then collapseGo rest (k + 1)
    else newlineRun k ++ c :: collapseGo rest 0

/-- JS `text.replace(/\n{3,}/g, "\n\n")`. -/
def collapseNewlines (l : List Char) : List Char :=
  collapseGo l 0

/-- Last index at which `pat` occurs in the string, `-1` if absent:
JS `String.prototype.lastIndexOf` for a non-empty pattern. -/
def lastIdxGo (pat : List Char) : List Char → Nat → Int → Int
  | [], _, best => best
  | c :: rest, i, best =>
    lastIdxGo pat rest (i + 1)
      (if (c :: rest).take pat.length = pat then (i : Int) else best)

/-- JS `seg.lastIndexOf(pat)` (for the non-empty patterns used here). -/
def lastIndexOf (seg pat : List Char) : Int :=
  lastIdxGo pat seg 0 (-1)

/-! ## Tokenizer (`tokenize`, src/unnamed/part_001 lines 17–44) -/

/-- Character class `[a-z]` (code points U+0061–U+007A). -/
def isAsciiLower (c : Char) : Bool := decide (0x61 ≤ c.toNat) && decide (c.toNat ≤ 0x7a)

/-- Character class `\d` (code points U+0030–U+0039). -/
def isDigitCh (c : Char) : Bool := decide (0x30 ≤ c.toNat) && decide (c.toNat ≤ 0x39)

/-- Character class `[一-鿿]` (CJK unified ideographs U+4E00–U+9FFF). -/
def isCJK (c : Char) : Bool := decide (0x4e00 ≤ c.toNat) && decide (c.toNat ≤ 0x9fff)

/-- JS `toLowerCase` restricted to its effect on the character classes the
tokenizer inspects: only `A`–`Z` lower-cases into `a`–`z`; CJK ideographs
and digits are fixed points of Unicode lowercasing. -/
def jsToLower (c : Char) : Char :=
  if 0x41 ≤ c.toNat ∧ c.toNat ≤ 0x5a then Char.ofNat (c.toNat + 32) else c

/-- All adjacent pairs of a character list, as two-character terms. -/
def bigrams : List Char → List (List Char)
  | a :: b :: rest => [a, b] :: bigrams (b :: rest)
  | _ => []

/-- `tokenize(text)`: English words (runs of 2+ lowercase letters after
lowercasing), then CJK unigrams, then CJK bigrams, then digit runs —
in the exact order the source pushes them. -/
def tokenize (text : List Char) : List (List Char) :=
  let englishWords :=
    (runsOf isAsciiLower (text.map jsToLower)).filter (fun w => 2 ≤ w.length)
  let chineseChars := text.filter isCJK
  let numbers := runsOf isDigitCh text
  englishWords ++ chineseChars.map (fun c => [c]) ++ bigrams chineseChars ++ numbers

/-! ## Scorer (`computeScore`, src/unnamed/part_001 lines 49–62) -/

/-- The `matchCount` accumulation loop of `computeScore`: how many term
occurrences of the chunk are members of the query term set.  The query
term set `new Set(tokenize(query))` is carried as a list; `Set.has` is
list membership. -/
def matchCount (queryTerms : List (List Char)) (chunkTerms : List (List Char)) : Nat :=
  chunkTerms.foldl (fun acc t => if t ∈ queryTerms then acc + 1 else acc) 0

/-- `computeScore(queryTerms, chunkContent)` as the real number the float
computes: `matchCount / Math.sqrt(chunkTerms.length)`, `0` for a termless
chunk. -/
noncomputable def computeScore (queryTerms : List (List Char)) (chunkContent : List Char) : ℝ :=
  let chunkTerms := tokenize chunkContent
  if chunkTerms.length = 0 then 0
  else (matchCount queryTerms chunkTerms : ℝ) / Real.sqrt (chunkTerms.length)

/-- Executable carrier of a chunk's score: the pair
`(matchCount, chunkTerms.length)` that determines the float
`matchCount / Math.sqrt(length)`. -/
def scoreParts (queryTerms : List (List Char)) (content : List Char) : Nat × Nat :=
  (matchCount queryTerms (tokenize content), (tokenize content).length)

/-- Real value denoted by a score pair. -/
noncomputable def scoreVal (p : Nat × Nat) : ℝ :=
  if p.2 = 0 then 0 else (p.1 : ℝ) / Real.sqrt p.2

/-- `score === 0`, decided on the pair: `m / √n = 0` iff `m = 0` or `n = 0`. -/
def scoreIsZero (p : Nat × Nat) : Bool := p.1 = 0 || p.2 = 0

/-- Exact comparison `scoreVal a < scoreVal b`, by cross-multiplied squares. -/
def scoreLtB (a b : Nat × Nat) : Bool :=
  if scoreIsZero a then !scoreIsZero b
  else if scoreIsZero b then false
  else decide (a.1 * a.1 * b.2 < b.1 * b.1 * a.2)

/-- Exact comparison `scoreVal a = scoreVal b`. -/
def scoreEqB (a b : Nat × Nat) : Bool :=
  (scoreIsZero a && scoreIsZero b) ||
  (!scoreIsZero a && !scoreIsZero b && decide (a.1 * a.1 * b.2 = b.1 * b.1 * a.2))

/-! ## Selector (`retrieveRelevantChunks`, src/unnamed/part_001 lines 73–160) -/

/-- A row of the `knowledgeChunks` table. -/
structure ChunkRow where
  knowledgeFileId : Nat
  chunkIndex : Nat
  content : List Char
deriving DecidableEq, Repr

/-- The `RetrievedChunk` interface; `score` is the symbolic score pair. -/
structure RetrievedChunk where
  fileId : Nat
  fileName : List Char
  chunkIndex : Nat
  content : List Char
  score : Nat × Nat
deriving DecidableEq, Repr

/-- `"未知文件"`, the fallback display name. -/
def defaultFileName : List Char := ['未', '知', '文', '件']

/-- `fileNameMap[id] || "未知文件"`: a missing entry — or an empty-string
entry, which is falsy in JS — falls back to the default name. -/
def lookupName (fileNameMap : Nat → Option (List Char)) (fid : Nat) : List Char :=
  match fileNameMap fid with
  | some n => if n = [] then defaultFileName else n
  | none => defaultFileName

/-- The `scored` map step: a row decorated with name and score. -/
def mkRetrieved (fileNameMap : Nat → Option (List Char))
    (queryTerms : List (List Char)) (r : ChunkRow) : RetrievedChunk :=
  ⟨r.knowledgeFileId, lookupName fileNameMap r.knowledgeFileId,
    r.chunkIndex, r.content, scoreParts queryTerms r.content⟩

/-- The sort comparator (lines 110–114): descending score, then ascending
file id, then ascending chunk index, as a `≤`-style boolean relation. -/
def chunkLE (a b : RetrievedChunk) : Bool :=
  if scoreEqB a.score b.score = false then scoreLtB b.score a.score
  else if a.fileId ≠ b.fileId then decide (a.fileId < b.fileId)
  else decide (a.chunkIndex ≤ b.chunkIndex)

/-- `scored.sort(comparator)`.  JS sort is stable (ES2019), and for a
total comparator preorder the stable sorted permutation is unique, so
the stable `insertionSort` computes exactly the JS result. -/
def sortScored (l : List RetrievedChunk) : List RetrievedChunk :=
  List.insertionSort (fun a b => chunkLE a b = true) l

/-- The greedy selection loop (lines 120–128): three stopping rules
checked in source order before each accept; `selCount` and `totalChars`
mirror `selected.length` and `totalChars`. -/
def selectLoop (maxChunks maxChars : Nat) :
    List RetrievedChunk → Nat → Nat → List RetrievedChunk
  | [], _, _ => []
  | c :: rest, selCount, totalChars =>
    if maxChunks ≤ selCount then []
    else if maxChars < totalChars + c.content.length then []
    else if scoreIsZero c.score && decide (0 < selCount) then []
    else c :: selectLoop maxChunks maxChars rest (selCount + 1)
            (totalChars + c.content.length)

/-- Comparator `(a, b) => a.chunkIndex - b.chunkIndex` of the fallback. -/
def idxLE (a b : ChunkRow) : Bool := decide (a.chunkIndex ≤ b.chunkIndex)

/-- Inner fallback loop over one file's first three chunks: stops that
file's loop when the next chunk would exceed the character budget, and
threads `totalChars` on. -/
def fbInner (fileNameMap : Nat → Option (List Char)) (maxChars : Nat) :
    List ChunkRow → Nat → List RetrievedChunk × Nat
  | [], t => ([], t)
  | c :: rest, t =>
    if maxChars < t + c.content.length then ([], t)
    else
      let p := fbInner fileNameMap maxChars rest (t + c.content.length)
      (⟨c.knowledgeFileId, lookupName fileNameMap c.knowledgeFileId,
          c.chunkIndex, c.content, (0, 0)⟩ :: p.1, p.2)

/-- Outer fallback loop over the per-file groups, threading `totalChars`. -/
def fbOuter (fileNameMap : Nat → Option (List Char)) (maxChars : Nat) :
    List (List ChunkRow) → Nat → List RetrievedChunk
  | [], _ => []
  | g :: gs, t =>
    let p := fbInner fileNameMap maxChars g t
    p.1 ++ fbOuter fileNameMap maxChars gs p.2

/-- `Object.keys(byFile)`: integer-like keys of a JS object enumerate in
ascending numeric order. -/
def sortedFileIds (rows : List ChunkRow) : List Nat :=
  List.insertionSort (fun a b => a ≤ b) ((rows.map (fun r => r.knowledgeFileId)).dedup)

/-- The fallback branch (lines 132–157): group fetched chunks by file in
ascending file-id order, sort each group by chunk index, take the first
three, and run the budgeted inner loop; `totalChars` is `0` on entry
because the branch runs only when nothing was selected. -/
def fallbackSelect (fileNameMap : Nat → Option (List Char)) (maxChars : Nat)
    (allChunks : List ChunkRow) : List RetrievedChunk :=
  fbOuter fileNameMap maxChars
    ((sortedFileIds allChunks).map (fun f =>
      (List.insertionSort (fun a b => idxLE a b = true)
        (allChunks.filter (fun r => r.knowledgeFileId = f))).take 3))
    0

/-- `retrieveRelevantChunks`.  The store handle is `db : Option (List
ChunkRow)` (`none` models `getDb()` resolving to `null`); the promise's
resolve/reject outcome is an `Except`, and every path in the source
resolves (`Except.ok`). -/
def retrieveRelevantChunks (db : Option (List ChunkRow)) (knowledgeFileIds : List Nat)
    (query : List Char) (fileNameMap : Nat → Option (List Char))
    (maxChunks maxChars : Nat) : Except (List Char) (List RetrievedChunk) :=
  if knowledgeFileIds.length = 0 then .ok []
  else
    match db with
    | none => .ok []
    | some rows =>
      let allChunks := rows.filter (fun r => r.knowledgeFileId ∈ knowledgeFileIds)
      if allChunks.length = 0 then .ok []
      else
        let queryTerms := tokenize query
        let scored := allChunks.map (mkRetrieved fileNameMap queryTerms)
        let sorted := sortScored scored
        let selected := selectLoop maxChunks maxChars sorted 0 0
        if selected.length = 0 && decide (0 < allChunks.length) then
          .ok (fallbackSelect fileNameMap maxChars allChunks)
        else .ok selected

/-! ## Chunker (`splitTextIntoChunks`, src/unnamed/part_002 lines 14–83) -/

def DEFAULT_CHUNK_SIZE : Nat := 800
def DEFAULT_CHUNK_OVERLAP : Nat := 100

/-- The `TextChunk` interface. -/
structure TextChunk where
  index : Nat
  content : List Char
  charCount : Nat
deriving DecidableEq, Repr

/-- `cleanedText`: collapse 3-or-more newlines to two, then trim. -/
def cleanedText (text : List Char) : List Char :=
  jsTrim (collapseNewlines text)

/-- The window-end computation of one loop iteration (lines 38–62):
tentative cut at `start + chunkSize`, then — when not at the end of the
text — prefer the last paragraph break, else the last sentence break,
each accepted only past 30% of the window.  The float threshold
`chunkSize * 0.3` is the exact comparison `3 * chunkSize < 10 * i`. -/
def chunkWindowEnd (cleaned : List Char) (chunkSize start : Nat) : Nat :=
  let e0 := min (start + chunkSize) cleaned.length
  if e0 < cleaned.length then
    let segment := jsSlice cleaned start e0
    let lastParagraph := lastIndexOf segment ['\n', '\n']
    if 3 * (chunkSize : Int) < 10 * lastParagraph then
      start + lastParagraph.toNat + 2
    else
      let lastSentence :=
        max (lastIndexOf segment ['。'])
          (max (lastIndexOf segment ['！'])
            (max (lastIndexOf segment ['？'])
              (max (lastIndexOf segment ['.', ' '])
                (max (lastIndexOf segment ['!', ' '])
                  (lastIndexOf segment ['?', ' '])))))
      if 3 * (chunkSize : Int) < 10 * lastSentence then
        start + lastSentence.toNat + 1
      else e0
  else e0

/-- The trimmed window content of one loop iteration (line 64). -/
def chunkContentAt (cleaned : List Char) (chunkSize start : Nat) : List Char :=
  jsTrim (jsSlice cleaned start (chunkWindowEnd cleaned chunkSize start))

/-- The start-advance of one loop iteration (lines 75–79):
`start = end - overlap`, forced forward to `end` whenever it would not
advance past `end - content.length` (or past `0` while no chunk has been
emitted).  `accNonempty` is `chunks.length > 0` after this iteration's
push.  JS can make `end - overlap` negative where ℕ truncates at `0`,
but both guards then fire (the threshold is never negative), so the two
semantics pick the same next start. -/
def chunkNextStart (cleaned : List Char) (chunkSize overlap start : Nat)
    (accNonempty : Bool) : Nat :=
  let e := chunkWindowEnd cleaned chunkSize start
  let content := chunkContentAt cleaned chunkSize start
  let s1 := e - overlap
  let threshold := if accNonempty then e - content.length else 0
  if s1 ≤ threshold then e else s1

/-- The accumulator after one loop iteration: push the trimmed window
content as a chunk when it is non-empty (lines 65–72). -/
def chunkPush (cleaned : List Char) (chunkSize start idx : Nat)
    (acc : List TextChunk) : List TextChunk :=
  if 0 < (chunkContentAt cleaned chunkSize start).length then
    acc ++ [⟨idx, chunkContentAt cleaned chunkSize start,
      (chunkContentAt cleaned chunkSize start).length⟩]
  else acc

/-- The chunk index after one loop iteration. -/
def chunkNextIdx (cleaned : List Char) (chunkSize start idx : Nat) : Nat :=
  if 0 < (chunkContentAt cleaned chunkSize start).length then idx + 1 else idx

/-- The chunking `while` loop, with explicit fuel: `none` means the fuel
ran out with the loop still running (the JS loop would still be
spinning).  `idx` and `acc` mirror `index` and `chunks`; the guard of
`chunkNextStart` reads `chunks.length > 0` after this iteration's push,
as the source does. -/
def chunkLoopF (cleaned : List Char) (chunkSize overlap : Nat) :
    Nat → Nat → Nat → List TextChunk → Option (List TextChunk)
  | 0, start, _, acc => if start < cleaned.length then none else some acc
  | fuel + 1, start, idx, acc =>
    if start < cleaned.length then
      chunkLoopF cleaned chunkSize overlap fuel
        (chunkNextStart cleaned chunkSize overlap start
          (decide (0 < (chunkPush cleaned chunkSize start idx acc).length)))
        (chunkNextIdx cleaned chunkSize start idx)
        (chunkPush cleaned chunkSize start idx acc)
    else some acc

/-- `splitTextIntoChunks(text, chunkSize, overlap)`.  `some` is the list
the JS function returns; `none` would be divergence of its loop (the
fuel `cleaned.length + 1` is shown sufficient whenever `1 ≤ chunkSize`). -/
def splitTextIntoChunks (text : List Char) (chunkSize overlap : Nat) :
    Option (List TextChunk) :=
  if text.length = 0 ∨ (jsTrim text).length = 0 then some []
  else
    let cleaned := cleanedText text
    if cleaned.length ≤ chunkSize then some [⟨0, cleaned, cleaned.length⟩]
    else chunkLoopF cleaned chunkSize overlap (cleaned.length + 1) 0 0 []

/-- Total character count of a retrieved-chunk list. -/
def totalChars (l : List RetrievedChunk) : Nat :=
  (l.map (fun c => c.content.length)).sum

/-- The chunk rows the store query fetches for a document-id list. -/
def fetchedChunks (db : Option (List ChunkRow)) (ids : List Nat) : List ChunkRow :=
  (db.getD []).filter (fun r => r.knowledgeFileId ∈ ids)

/-- The sorted scored list (steps 3–4 of the Selector). -/
def selectorSorted (db : Option (List ChunkRow)) (ids : List Nat)
    (query : List Char) (fileNameMap : Nat → Option (List Char)) : List RetrievedChunk :=
  sortScored ((fetchedChunks db ids).map (mkRetrieved fileNameMap (tokenize query)))

/-- The score-ranked greedy selection (step 5 of the Selector). -/
def selectorRanked (db : Option (List ChunkRow)) (ids : List Nat)
    (query : List Char) (fileNameMap : Nat → Option (List Char))
    (maxChunks maxChars : Nat) : List RetrievedChunk :=
  selectLoop maxChunks maxChars (selectorSorted db ids query fileNameMap) 0 0

/-! ## Library lemmas on the string helpers -/

theorem mem_dropWhile_of_neg {p : Char → Bool} {c : Char} (hc : p c = false) :
    ∀ l : List Char, c ∈ l → c ∈ l.dropWhile p := by
  intro l hl
  induction l with
  | nil => cases hl
  | cons a t ih =>
    rw [List.dropWhile_cons]
    rcases List.mem_cons.mp hl with rfl | ht
    · simp [hc]
    · by_cases hpa : p a = true
      · simpa [hpa] using ih ht
      · simp [hpa, ht]

theorem jsTrim_sublist (l : List Char) : (jsTrim l).Sublist l := by
  unfold jsTrim
  have h1 : (l.dropWhile jsWhitespace).Sublist l := List.dropWhile_sublist _
  have h2 : ((l.dropWhile jsWhitespace).reverse.dropWhile jsWhitespace).Sublist
      (l.dropWhile jsWhitespace).reverse := List.dropWhile_sublist _
  have h3 := h2.reverse
  rw [List.reverse_reverse] at h3
  exact h3.trans h1

theorem jsTrim_subset (l : List Char) : jsTrim l ⊆ l :=
  (jsTrim_sublist l).subset

theorem jsTrim_length_le (l : List Char) : (jsTrim l).length ≤ l.length :=
  (jsTrim_sublist l).length_le

theorem mem_jsTrim_of_neg {c : Char} (hc : jsWhitespace c = false)
    {l : List Char} (hl : c ∈ l) : c ∈ jsTrim l := by
  unfold jsTrim
  have h1 : c ∈ l.dropWhile jsWhitespace := mem_dropWhile_of_neg hc l hl
  have h2 : c ∈ (l.dropWhile jsWhitespace).reverse := List.mem_reverse.mpr h1
  have h3 := mem_dropWhile_of_neg hc _ h2
  exact List.mem_reverse.mpr h3

theorem dropWhile_dropWhile (p : Char → Bool) :
    ∀ l : List Char, (l.dropWhile p).dropWhile p = l.dropWhile p := by
  intro l
  induction l with
  | nil => rfl
  | cons a t ih =>
    rw [List.dropWhile_cons]
    by_cases hpa : p a = true
    · simpa [hpa] using ih
    · simp [List.dropWhile_cons, hpa]

theorem head_not_ws_of_dropWhile_self {p : Char → Bool} {a : Char} {t : List Char}
    (h : (a :: t).dropWhile p = a :: t) : p a = false := by
  by_cases hpa : p a = true
  · exfalso
    rw [List.dropWhile_cons, if_pos hpa] at h
    have hlen := congrArg List.length h
    have hle : (t.dropWhile p).length ≤ t.length :=
      (List.dropWhile_sublist p).length_le
    simp at hlen
    omega
  · simpa using hpa

theorem dropWhile_of_head_neg {p : Char → Bool} {a : Char} {t : List Char}
    (h : p a = false) : (a :: t).dropWhile p = a :: t := by
  simp [List.dropWhile_cons, h]

/-- A trimmed string has no leading whitespace. -/
theorem jsTrim_dropWhile (l : List Char) :
    (jsTrim l).dropWhile jsWhitespace = jsTrim l := by
  unfold jsTrim
  set A := l.dropWhile jsWhitespace with hA
  have hAfix : A.dropWhile jsWhitespace = A := by rw [hA]; exact dropWhile_dropWhile _ l
  set C := A.reverse.dropWhile jsWhitespace with hC
  -- `A = C.reverse ++ junk`, so a nonempty `C.reverse` starts with `A`'s head
  have hsplit : A = C.reverse ++ (A.reverse.takeWhile jsWhitespace).reverse := by
    have h0 : A.reverse.takeWhile jsWhitespace ++ C = A.reverse := by
      rw [hC]; exact List.takeWhile_append_dropWhile _ _
    have h1 := congrArg List.reverse h0
    rw [List.reverse_append, List.reverse_reverse] at h1
    exact h1.symm
  cases hCe : C.reverse with
  | nil => simp
  | cons b u =>
    rw [hCe] at hsplit
    cases hAe : A with
    | nil => rw [hAe] at hsplit; cases hsplit
    | cons a t =>
      have hfa : jsWhitespace a = false := by
        apply head_not_ws_of_dropWhile_self (t := t)
        rw [← hAe]; exact hAfix
      have hb : b = a := by
        rw [hAe] at hsplit
        exact ((List.cons.injEq _ _ _ _).mp hsplit.symm).1
      subst hb
      exact dropWhile_of_head_neg hfa

/-- A trimmed string has no trailing whitespace. -/
theorem jsTrim_reverse_dropWhile (l : List Char) :
    (jsTrim l).reverse.dropWhile jsWhitespace = (jsTrim l).reverse := by
  unfold jsTrim
  simp [dropWhile_dropWhile]

/-- Trimming is idempotent. -/
theorem jsTrim_jsTrim (l : List Char) : jsTrim (jsTrim l) = jsTrim l := by
  conv_lhs => rw [jsTrim]
  rw [jsTrim_dropWhile l, jsTrim_reverse_dropWhile l, List.reverse_reverse]

theorem mem_collapseGo_of_ne {c : Char} (hc : c ≠ '\n') :
    ∀ (l : List Char) (k : Nat), c ∈ l → c ∈ collapseGo l k := by
  intro l
  induction l with
  | nil => intro k h; cases h
  | cons a t ih =>
    intro k h
    rcases List.mem_cons.mp h with rfl | ht
    · unfold collapseGo
      by_cases ha : c = '\n'
      · exact absurd ha hc
      · simp [ha]
    · unfold collapseGo
      by_cases ha : a = '\n'
      · simpa [ha] using ih (k + 1) ht
      · simp only [if_neg ha]
        exact List.mem_append_right _ (List.mem_cons_of_mem _ (ih 0 ht))

theorem mem_of_mem_collapseGo {c : Char} :
    ∀ (l : List Char) (k : Nat), c ∈ collapseGo l k → c ∈ l ∨ c = '\n' := by
  intro l
  induction l with
  | nil =>
    intro k h
    unfold collapseGo newlineRun at h
    right
    by_cases h3 : 3 ≤ k
    · rw [if_pos h3] at h; simpa using h
    · rw [if_neg h3] at h; exact (List.eq_of_mem_replicate h)
  | cons a t ih =>
    intro k h
    unfold collapseGo at h
    by_cases ha : a = '\n'
    · rw [if_pos ha] at h
      rcases ih (k + 1) h with h' | h'
      · exact Or.inl (List.mem_cons_of_mem _ h')
      · exact Or.inr h'
    · rw [if_neg ha] at h
      rcases List.mem_append.mp h with h' | h'
      · right
        unfold newlineRun at h'
        by_cases h3 : 3 ≤ k
        · rw [if_pos h3] at h'; simpa using h'
        · rw [if_neg h3] at h'; exact List.eq_of_mem_replicate h'
      · rcases List.mem_cons.mp h' with rfl | h''
        · exact Or.inl (List.mem_cons_self _ _)
        · rcases ih 0 h'' with h3 | h3
          · exact Or.inl (List.mem_cons_of_mem _ h3)
          · exact Or.inr h3

theorem mem_collapseNewlines_of_not_ws {c : Char} (hc : jsWhitespace c = false)
    {l : List Char} (hl : c ∈ l) : c ∈ collapseNewlines l := by
  apply mem_collapseGo_of_ne _ l 0 hl
  intro h
  rw [h] at hc
  simp [jsWhitespace] at hc

theorem ws_of_mem_collapseNewlines {c : Char} {l : List Char}
    (h : c ∈ collapseNewlines l) (hall : ∀ x ∈ l, jsWhitespace x = true) :
    jsWhitespace c = true := by
  rcases mem_of_mem_collapseGo l 0 h with h' | h'
  · exact hall c h'
  · rw [h']; simp [jsWhitespace]

theorem jsTrim_eq_nil_iff (l : List Char) :
    jsTrim l = [] ↔ ∀ c ∈ l, jsWhitespace c = true := by
  constructor
  · intro h c hc
    by_contra hne
    have : c ∈ jsTrim l :=
      mem_jsTrim_of_neg (by simpa using hne) hc
    rw [h] at this; cases this
  · intro h
    unfold jsTrim
    have h1 : l.dropWhile jsWhitespace = [] := by
      rw [List.dropWhile_eq_nil_iff]
      intro c hc; exact h c hc
    rw [h1]; rfl

/-! ## Scorer and tokenizer lemmas -/

theorem foldl_match_eq_countP (Q : List (List Char)) :
    ∀ (ts : List (List Char)) (n : Nat),
      ts.foldl (fun acc t => if t ∈ Q then acc + 1 else acc) n =
        n + ts.countP (fun t => decide (t ∈ Q)) := by
  intro ts
  induction ts with
  | nil => intro n; simp
  | cons t rest ih =>
    intro n
    rw [List.foldl_cons, List.countP_cons]
    by_cases h : t ∈ Q
    · rw [if_pos h, ih]
      simp [h]
      omega
    · rw [if_neg h, ih]
      simp [h]

theorem matchCount_eq_countP (Q ts : List (List Char)) :
    matchCount Q ts = ts.countP (fun t => decide (t ∈ Q)) := by
  unfold matchCount
  simpa using foldl_match_eq_countP Q ts 0

theorem matchCount_eq_zero (Q ts : List (List Char))
    (h : ∀ t ∈ ts, t ∉ Q) : matchCount Q ts = 0 := by
  rw [matchCount_eq_countP, List.countP_eq_zero]
  intro t ht
  simpa using h t ht

theorem scoreVal_scoreParts (Q : List (List Char)) (c : List Char) :
    scoreVal (scoreParts Q c) = computeScore Q c := by
  unfold scoreVal scoreParts computeScore
  by_cases h : (tokenize c).length = 0 <;> simp [h]

theorem scoreVal_nonneg (p : Nat × Nat) : 0 ≤ scoreVal p := by
  unfold scoreVal
  by_cases h : p.2 = 0
  · rw [if_pos h]
  · rw [if_neg h]
    exact div_nonneg (by positivity) (Real.sqrt_nonneg _)

/-- The pair-level zero test decides exactly `scoreVal p = 0`, i.e. the
float test `score === 0`. -/
theorem scoreIsZero_iff (p : Nat × Nat) : scoreIsZero p = true ↔ scoreVal p = 0 := by
  unfold scoreIsZero scoreVal
  by_cases h2 : p.2 = 0
  · simp [h2]
  · rw [if_neg h2]
    have hs : (0 : ℝ) < Real.sqrt p.2 :=
      Real.sqrt_pos.mpr (by exact_mod_cast Nat.pos_of_ne_zero h2)
    constructor
    · intro h
      simp only [Bool.or_eq_true, decide_eq_true_eq] at h
      rcases h with h | h
      · rw [h]; simp
      · exact absurd h h2
    · intro h
      rw [div_eq_zero_iff] at h
      rcases h with h | h
      · simp only [Bool.or_eq_true, decide_eq_true_eq]
        left
        exact_mod_cast h
      · rw [h] at hs; exact absurd hs (lt_irrefl 0)

theorem scoreVal_pos {p : Nat × Nat} (h : scoreIsZero p = false) : 0 < scoreVal p := by
  rcases lt_or_eq_of_le (scoreVal_nonneg p) with hlt | heq
  · exact hlt
  · exfalso
    have := (scoreIsZero_iff p).mpr heq.symm
    rw [this] at h
    cases h

theorem scoreIsZero_false_parts {p : Nat × Nat} (h : scoreIsZero p = false) :
    p.1 ≠ 0 ∧ p.2 ≠ 0 := by
  unfold scoreIsZero at h
  simp only [Bool.or_eq_false_iff, decide_eq_false_iff_not] at h
  exact h

theorem scoreVal_of_ne {p : Nat × Nat} (h : p.2 ≠ 0) :
    scoreVal p = (p.1 : ℝ) / Real.sqrt p.2 := by
  unfold scoreVal
  rw [if_neg h]

/-- Cross-multiplied squares decide the real comparison for non-zero
denominators: `m₁/√n₁ < m₂/√n₂ ↔ m₁²·n₂ < m₂²·n₁`. -/
theorem score_cross_lt (m1 n1 m2 n2 : Nat) (hn1 : n1 ≠ 0) (hn2 : n2 ≠ 0) :
    ((m1 : ℝ) / Real.sqrt n1 < (m2 : ℝ) / Real.sqrt n2 ↔
      m1 * m1 * n2 < m2 * m2 * n1) := by
  have hs1 : (0 : ℝ) < Real.sqrt n1 :=
    Real.sqrt_pos.mpr (by exact_mod_cast Nat.pos_of_ne_zero hn1)
  have hs2 : (0 : ℝ) < Real.sqrt n2 :=
    Real.sqrt_pos.mpr (by exact_mod_cast Nat.pos_of_ne_zero hn2)
  have he1 : ((m1 : ℝ) * Real.sqrt n2) * ((m1 : ℝ) * Real.sqrt n2) =
      (m1 : ℝ) * m1 * n2 := by
    rw [mul_mul_mul_comm, Real.mul_self_sqrt (by positivity : (0 : ℝ) ≤ (n2 : ℝ))]
  have he2 : ((m2 : ℝ) * Real.sqrt n1) * ((m2 : ℝ) * Real.sqrt n1) =
      (m2 : ℝ) * m2 * n1 := by
    rw [mul_mul_mul_comm, Real.mul_self_sqrt (by positivity : (0 : ℝ) ≤ (n1 : ℝ))]
  rw [div_lt_div_iff hs1 hs2]
  constructor
  · intro h
    have hsq := mul_self_lt_mul_self (by positivity : (0 : ℝ) ≤ (m1 : ℝ) * Real.sqrt n2) h
    rw [he1, he2] at hsq
    exact_mod_cast hsq
  · intro h
    have h' : (m1 : ℝ) * m1 * n2 < (m2 : ℝ) * m2 * n1 := by exact_mod_cast h
    by_contra hle
    push_neg at hle
    have hsq := mul_self_le_mul_self (by positivity : (0 : ℝ) ≤ (m2 : ℝ) * Real.sqrt n1) hle
    rw [he1, he2] at hsq
    exact absurd (lt_of_lt_of_le h' hsq) (lt_irrefl _)

/-- Cross-multiplied squares decide equality of the real scores. -/
theorem score_cross_eq (m1 n1 m2 n2 : Nat) (hn1 : n1 ≠ 0) (hn2 : n2 ≠ 0) :
    ((m1 : ℝ) / Real.sqrt n1 = (m2 : ℝ) / Real.sqrt n2 ↔
      m1 * m1 * n2 = m2 * m2 * n1) := by
  constructor
  · intro h
    rcases lt_trichotomy (m1 * m1 * n2) (m2 * m2 * n1) with hlt | heq | hgt
    · exfalso
      have := (score_cross_lt m1 n1 m2 n2 hn1 hn2).mpr hlt
      rw [h] at this
      exact absurd this (lt_irrefl _)
    · exact heq
    · exfalso
      have := (score_cross_lt m2 n2 m1 n1 hn2 hn1).mpr hgt
      rw [h] at this
      exact absurd this (lt_irrefl _)
  · intro h
    have h1 : ¬ ((m1 : ℝ) / Real.sqrt n1 < (m2 : ℝ) / Real.sqrt n2) := by
      intro hc
      have := (score_cross_lt m1 n1 m2 n2 hn1 hn2).mp hc
      omega
    have h2 : ¬ ((m2 : ℝ) / Real.sqrt n2 < (m1 : ℝ) / Real.sqrt n1) := by
      intro hc
      have := (score_cross_lt m2 n2 m1 n1 hn2 hn1).mp hc
      omega
    push_neg at h1 h2
    exact le_antisymm h2 h1

/-- The executable comparator `scoreLtB` decides exactly the real
comparison of the scores the floats denote. -/
theorem scoreLtB_iff (a b : Nat × Nat) :
    scoreLtB a b = true ↔ scoreVal a < scoreVal b := by
  unfold scoreLtB
  by_cases ha : scoreIsZero a = true
  · rw [if_pos ha]
    have hva : scoreVal a = 0 := (scoreIsZero_iff a).mp ha
    rw [hva]
    by_cases hb : scoreIsZero b = true
    · have hvb : scoreVal b = 0 := (scoreIsZero_iff b).mp hb
      rw [hvb, hb]
      simp
    · have hb' : scoreIsZero b = false := by simpa using hb
      rw [hb']
      simpa using scoreVal_pos hb'
  · have ha' : scoreIsZero a = false := by simpa using ha
    rw [if_neg ha]
    by_cases hb : scoreIsZero b = true
    · rw [if_pos hb]
      have hvb : scoreVal b = 0 := (scoreIsZero_iff b).mp hb
      rw [hvb]
      constructor
      · intro h; cases h
      · intro h
        exact absurd (lt_of_le_of_lt (scoreVal_nonneg a) h) (lt_irrefl 0)
    · rw [if_neg hb]
      have hb' : scoreIsZero b = false := by simpa using hb
      obtain ⟨_, hn1⟩ := scoreIsZero_false_parts ha'
      obtain ⟨_, hn2⟩ := scoreIsZero_false_parts hb'
      rw [scoreVal_of_ne hn1, scoreVal_of_ne hn2,
        score_cross_lt a.1 a.2 b.1 b.2 hn1 hn2]
      simp

/-- The executable comparator `scoreEqB` decides exactly equality of the
real scores. -/
theorem scoreEqB_iff (a b : Nat × Nat) :
    scoreEqB a b = true ↔ scoreVal a = scoreVal b := by
  unfold scoreEqB
  by_cases ha : scoreIsZero a = true
  · by_cases hb : scoreIsZero b = true
    · rw [ha, hb]
      rw [(scoreIsZero_iff a).mp ha, (scoreIsZero_iff b).mp hb]
      simp
    · have hb' : scoreIsZero b = false := by simpa using hb
      rw [ha, hb']
      rw [(scoreIsZero_iff a).mp ha]
      have := scoreVal_pos hb'
      constructor
      · intro h; simp at h
      · intro h
        rw [← h] at this
        exact absurd this (lt_irrefl _)
  · have ha' : scoreIsZero a = false := by simpa using ha
    by_cases hb : scoreIsZero b = true
    · rw [ha', hb]
      rw [(scoreIsZero_iff b).mp hb]
      have := scoreVal_pos ha'
      constructor
      · intro h; simp at h
      · intro h
        rw [h] at this
        exact absurd this (lt_irrefl _)
    · have hb' : scoreIsZero b = false := by simpa using hb
      rw [ha', hb']
      obtain ⟨_, hn1⟩ := scoreIsZero_false_parts ha'
      obtain ⟨_, hn2⟩ := scoreIsZero_false_parts hb'
      rw [scoreVal_of_ne hn1, scoreVal_of_ne hn2,
        score_cross_eq a.1 a.2 b.1 b.2 hn1 hn2]
      simp

/-- The sort comparator is total, so the stable sorted permutation — and
with it the modelled JS sort result — is unique. -/
theorem chunkLE_total (a b : RetrievedChunk) :
    chunkLE a b = true ∨ chunkLE b a = true := by
  unfold chunkLE
  have hsymm : scoreEqB a.score b.score = scoreEqB b.score a.score := by
    by_cases h : scoreEqB a.score b.score = true
    · rw [h, ((scoreEqB_iff _ _).mpr ((scoreEqB_iff _ _).mp h).symm)]
    · have h' : scoreEqB a.score b.score = false := by simpa using h
      have h2 : scoreEqB b.score a.score = false := by
        by_contra hc
        have hc' : scoreEqB b.score a.score = true := by simpa using hc
        have := (scoreEqB_iff _ _).mpr ((scoreEqB_iff _ _).mp hc').symm
        rw [this] at h'
        cases h'
      rw [h', h2]
  by_cases he : scoreEqB a.score b.score = true
  · rw [he] at hsymm
    rw [he, ← hsymm]
    simp only [if_neg (by simp : ¬ (true : Bool) = false)]
    by_cases hf : a.fileId = b.fileId
    · rw [if_neg (by simp [hf]), if_neg (by simp [hf.symm])]
      rcases Nat.le_total a.chunkIndex b.chunkIndex with h | h
      · left; simpa using h
      · right; simpa using h
    · rw [if_pos (by simpa using hf), if_pos (by simpa using (Ne.symm hf))]
      rcases Nat.lt_or_ge a.fileId b.fileId with h | h
      · left; simpa using h
      · right
        have : b.fileId < a.fileId := by omega
        simpa using this
  · have he' : scoreEqB a.score b.score = false := by simpa using he
    rw [he'] at hsymm
    rw [he', ← hsymm]
    simp only [if_pos rfl]
    have hne : scoreVal a.score ≠ scoreVal b.score := by
      intro hc
      have := (scoreEqB_iff a.score b.score).mpr hc
      rw [this] at he'
      cases he'
    rcases lt_or_gt_of_ne hne with h | h
    · right; exact (scoreLtB_iff _ _).mpr h
    · left; exact (scoreLtB_iff _ _).mpr h

theorem runsGo_eq_nil {p : Char → Bool} :
    ∀ l : List Char, (∀ c ∈ l, p c = false) → runsGo p l [] = [] := by
  intro l
  induction l with
  | nil => intro _; rfl
  | cons a t ih =>
    intro h
    unfold runsGo
    rw [if_neg (by simp [h a (List.mem_cons_self a t)]), if_pos rfl]
    exact ih fun c hc => h c (List.mem_cons_of_mem _ hc)

theorem bigrams_length : ∀ l : List Char, (bigrams l).length = l.length - 1 := by
  intro l
  induction l with
  | nil => rfl
  | cons a t ih =>
    cases t with
    | nil => rfl
    | cons b u =>
      show (bigrams (a :: b :: u)).length = (b :: u).length
      unfold bigrams
      simpa using ih

theorem bigrams_all_length_two :
    ∀ l : List Char, ∀ w ∈ bigrams l, w.length = 2 := by
  intro l
  induction l with
  | nil => intro w hw; cases hw
  | cons a t ih =>
    cases t with
    | nil => intro w hw; cases hw
    | cons b u =>
      intro w hw
      unfold bigrams at hw
      rcases List.mem_cons.mp hw with rfl | hw'
      · rfl
      · exact ih w hw'

/-- `C4`: `computeScore(Q, c)` equals `m / √n` with `n` the chunk's term
count with repetition, `m` the number of those occurrences in `Q`;
score `0` when `n = 0`; always non-negative. -/
theorem C4_computeScore_spec (Q : List (List Char)) (c : List Char) :
    computeScore Q c =
      (if (tokenize c).length = 0 then (0 : ℝ)
       else ((tokenize c).countP (fun t => decide (t ∈ Q)) : ℝ) /
         Real.sqrt ((tokenize c).length)) ∧
    ((tokenize c).length = 0 → computeScore Q c = 0) ∧
    0 ≤ computeScore Q c := by
  have hval : computeScore Q c =
      (if (tokenize c).length = 0 then (0 : ℝ)
       else ((tokenize c).countP (fun t => decide (t ∈ Q)) : ℝ) /
         Real.sqrt ((tokenize c).length)) := by
    simp only [computeScore, matchCount_eq_countP]
  refine ⟨hval, ?_, ?_⟩
  · intro h0
    rw [hval, if_pos h0]
  · rw [hval]
    by_cases h0 : (tokenize c).length = 0
    · rw [if_pos h0]
    · rw [if_neg h0]
      exact div_nonneg (by positivity) (Real.sqrt_nonneg _)

/-- `C8`: a pure-CJK input of length `N ≥ 2` tokenizes to exactly the `N`
unigrams followed by the `N − 1` bigrams of adjacent pairs. -/
theorem C8_tokenize_cjk (t : List Char) (N : Nat)
    (hcjk : ∀ c ∈ t, isCJK c = true) (hlen : t.length = N) (hN : 2 ≤ N) :
    tokenize t = t.map (fun c => [c]) ++ bigrams t ∧
    (tokenize t).countP (fun w => w.length = 1) = N ∧
    (tokenize t).countP (fun w => w.length = 2) = N - 1 := by
  have hrange : ∀ c ∈ t, 0x4e00 ≤ c.toNat ∧ c.toNat ≤ 0x9fff := by
    intro c hct
    have := hcjk c hct
    unfold isCJK at this
    simpa using this
  have hmapid : t.map jsToLower = t := by
    conv_rhs => rw [← List.map_id t]
    apply List.map_congr_left
    intro c hct
    unfold jsToLower
    rw [if_neg (by
      intro hA
      have := (hrange c hct).1
      omega)]
    rfl
  have heq : tokenize t = t.map (fun c => [c]) ++ bigrams t := by
    unfold tokenize
    rw [hmapid]
    rw [runsOf, runsGo_eq_nil t (by
      intro c hct
      unfold isAsciiLower
      have := (hrange c hct).1
      simp only [Bool.and_eq_false_iff, decide_eq_false_iff_not]
      right; omega)]
    rw [runsOf, runsGo_eq_nil t (by
      intro c hct
      unfold isDigitCh
      have := (hrange c hct).1
      simp only [Bool.and_eq_false_iff, decide_eq_false_iff_not]
      right; omega)]
    rw [List.filter_eq_self.mpr (fun c hct => hcjk c hct)]
    simp
  refine ⟨heq, ?_, ?_⟩
  · rw [heq, List.countP_append]
    have h1 : (t.map (fun c => [c])).countP (fun w => decide (w.length = 1)) =
        (t.map (fun c => [c])).length := by
      rw [List.countP_eq_length]
      intro w hw
      rcases List.mem_map.mp hw with ⟨c, _, rfl⟩
      simp
    have h2 : (bigrams t).countP (fun w => decide (w.length = 1)) = 0 := by
      rw [List.countP_eq_zero]
      intro w hw
      have := bigrams_all_length_two t w hw
      simp [this]
    rw [h1, h2, List.length_map, hlen]
    omega
  · rw [heq, List.countP_append]
    have h1 : (t.map (fun c => [c])).countP (fun w => decide (w.length = 2)) = 0 := by
      rw [List.countP_eq_zero]
      intro w hw
      rcases List.mem_map.mp hw with ⟨c, _, rfl⟩
      simp
    have h2 : (bigrams t).countP (fun w => decide (w.length = 2)) =
        (bigrams t).length := by
      rw [List.countP_eq_length]
      intro w hw
      have := bigrams_all_length_two t w hw
      simp [this]
    rw [h1, h2, bigrams_length, hlen]
    omega

/-- Witness for `C8` on the concrete input `"你好吗"` (`N = 3`). -/
theorem C8_tokenize_cjk_witness :
    ((∀ c ∈ ['你', '好', '吗'], isCJK c = true) ∧
      ([('你' : Char), '好', '吗'].length = 3) ∧ 2 ≤ 3) ∧
    (tokenize ['你', '好', '吗'] =
        ['你', '好', '吗'].map (fun c => [c]) ++ bigrams ['你', '好', '吗'] ∧
      (tokenize ['你', '好', '吗']).countP (fun w => w.length = 1) = 3 ∧
      (tokenize ['你', '好', '吗']).countP (fun w => w.length = 2) = 3 - 1) :=
  ⟨⟨by decide, by decide, by decide⟩,
    C8_tokenize_cjk ['你', '好', '吗'] 3 (by decide) (by decide) (by decide)⟩

/-! ## Chunker lemmas -/

theorem lastIdxGo_cases (pat : List Char) :
    ∀ (l : List Char) (i : Nat) (best : Int),
      lastIdxGo pat l i best = best ∨
      ∃ j, j < l.length ∧ lastIdxGo pat l i best = (i : Int) + j ∧
        (l.drop j).take pat.length = pat := by
  intro l
  induction l with
  | nil => intro i best; left; rfl
  | cons c rest ih =>
    intro i best
    unfold lastIdxGo
    by_cases hm : (c :: rest).take pat.length = pat
    · rw [if_pos hm]
      rcases ih (i + 1) (i : Int) with h | ⟨j, hj, heq, hmatch⟩
      · right
        exact ⟨0, by simp, by rw [h]; simp, by simpa using hm⟩
      · right
        refine ⟨j + 1, by simp; omega, ?_, by simpa using hmatch⟩
        rw [heq]; push_cast; ring
    · rw [if_neg hm]
      rcases ih (i + 1) best with h | ⟨j, hj, heq, hmatch⟩
      · left; exact h
      · right
        refine ⟨j + 1, by simp; omega, ?_, by simpa using hmatch⟩
        rw [heq]; push_cast; ring

theorem lastIndexOf_spec (seg pat : List Char) :
    lastIndexOf seg pat = -1 ∨
    ∃ j, j < seg.length ∧ lastIndexOf seg pat = (j : Int) ∧
      (seg.drop j).take pat.length = pat := by
  rcases lastIdxGo_cases pat seg 0 (-1) with h | ⟨j, hj, heq, hm⟩
  · left; exact h
  · right; exact ⟨j, hj, by rw [lastIndexOf, heq]; simp, hm⟩

/-- A found occurrence fits inside the string. -/
theorem lastIndexOf_bound {seg pat : List Char} {v : Int}
    (h : lastIndexOf seg pat = v) (hv : 0 ≤ v) :
    v.toNat + pat.length ≤ seg.length := by
  rcases lastIndexOf_spec seg pat with h1 | ⟨j, hj, heq, hm⟩
  · rw [h] at h1; omega
  · rw [h] at heq
    have hjv : v = (j : Int) := heq
    have hcb := congrArg List.length hm
    rw [List.length_take, List.length_drop] at hcb
    have hlen : pat.length ≤ seg.length - j := by omega
    omega

theorem jsSlice_length {l : List Char} {a b : Nat} (hab : a ≤ b) (hb : b ≤ l.length) :
    (jsSlice l a b).length = b - a := by
  unfold jsSlice
  simp
  omega

/-- The adjusted window end stays inside `(start, cleaned.length]`. -/
theorem chunkWindowEnd_bounds (cleaned : List Char) (chunkSize start : Nat)
    (hcs : 1 ≤ chunkSize) (hstart : start < cleaned.length) :
    start < chunkWindowEnd cleaned chunkSize start ∧
      chunkWindowEnd cleaned chunkSize start ≤ cleaned.length := by
  unfold chunkWindowEnd
  set e0 := min (start + chunkSize) cleaned.length with he0
  have h1 : start < e0 := by omega
  have h2 : e0 ≤ cleaned.length := by omega
  by_cases hend : e0 < cleaned.length
  · rw [if_pos hend]
    set segment := jsSlice cleaned start e0 with hseg
    have hseglen : segment.length = e0 - start :=
      jsSlice_length (by omega) h2
    set lastParagraph := lastIndexOf segment ['\n', '\n'] with hlp
    by_cases hpc : 3 * (chunkSize : Int) < 10 * lastParagraph
    · rw [if_pos hpc]
      have hlp0 : 0 ≤ lastParagraph := by omega
      have hb := lastIndexOf_bound hlp.symm hlp0
      simp at hb
      constructor
      · omega
      · omega
    · rw [if_neg hpc]
      set lastSentence :=
        max (lastIndexOf segment ['。'])
          (max (lastIndexOf segment ['！'])
            (max (lastIndexOf segment ['？'])
              (max (lastIndexOf segment ['.', ' '])
                (max (lastIndexOf segment ['!', ' '])
                  (lastIndexOf segment ['?', ' ']))))) with hls
      by_cases hsc : 3 * (chunkSize : Int) < 10 * lastSentence
      · rw [if_pos hsc]
        have hls0 : 0 ≤ lastSentence := by omega
        -- the max is attained by one of the six searches
        have hone : ∃ pat : List Char, 1 ≤ pat.length ∧
            lastIndexOf segment pat = lastSentence := by
          rcases max_choice (lastIndexOf segment ['。'])
            (max (lastIndexOf segment ['！'])
              (max (lastIndexOf segment ['？'])
                (max (lastIndexOf segment ['.', ' '])
                  (max (lastIndexOf segment ['!', ' '])
                    (lastIndexOf segment ['?', ' ']))))) with h | h
          · exact ⟨['。'], by simp, by rw [hls, h]⟩
          · rw [hls, h]
            rcases max_choice (lastIndexOf segment ['！'])
              (max (lastIndexOf segment ['？'])
                (max (lastIndexOf segment ['.', ' '])
                  (max (lastIndexOf segment ['!', ' '])
                    (lastIndexOf segment ['?', ' '])))) with h2 | h2
            · exact ⟨['！'], by simp, by rw [h2]⟩
            · rw [h2]
              rcases max_choice (lastIndexOf segment ['？'])
                (max (lastIndexOf segment ['.', ' '])
                  (max (lastIndexOf segment ['!', ' '])
                    (lastIndexOf segment ['?', ' ']))) with h3 | h3
              · exact ⟨['？'], by simp, by rw [h3]⟩
              · rw [h3]
                rcases max_choice (lastIndexOf segment ['.', ' '])
                  (max (lastIndexOf segment ['!', ' '])
                    (lastIndexOf segment ['?', ' '])) with h4 | h4
                · exact ⟨['.', ' '], by simp, by rw [h4]⟩
                · rw [h4]
                  rcases max_choice (lastIndexOf segment ['!', ' '])
                    (lastIndexOf segment ['?', ' ']) with h5 | h5
                  · exact ⟨['!', ' '], by simp, by rw [h5]⟩
                  · exact ⟨['?', ' '], by simp, by rw [h5]⟩
        rcases hone with ⟨pat, hpat, hfound⟩
        have hb := lastIndexOf_bound hfound hls0
        constructor
        · omega
        · omega
      · rw [if_neg hsc]
        exact ⟨h1, h2⟩
  · rw [if_neg hend]
    exact ⟨h1, h2⟩

/-- The trimmed window content is no longer than the window. -/
theorem chunkContentAt_length (cleaned : List Char) (chunkSize start : Nat)
    (hcs : 1 ≤ chunkSize) (hstart : start < cleaned.length) :
    (chunkContentAt cleaned chunkSize start).length ≤
      chunkWindowEnd cleaned chunkSize start - start := by
  obtain ⟨h1, h2⟩ := chunkWindowEnd_bounds cleaned chunkSize start hcs hstart
  unfold chunkContentAt
  calc (jsTrim (jsSlice cleaned start (chunkWindowEnd cleaned chunkSize start))).length
      ≤ (jsSlice cleaned start (chunkWindowEnd cleaned chunkSize start)).length :=
        jsTrim_length_le _
    _ = chunkWindowEnd cleaned chunkSize start - start :=
        jsSlice_length (by omega) h2

/-- The start-advance guard guarantees strict progress on every loop
iteration with a non-empty accumulator (and on the initial iteration). -/
theorem chunkNextStart_progress (cleaned : List Char) (chunkSize overlap start : Nat)
    (accNonempty : Bool) (hcs : 1 ≤ chunkSize) (hstart : start < cleaned.length)
    (hinv : accNonempty = true ∨ start = 0) :
    start < chunkNextStart cleaned chunkSize overlap start accNonempty := by
  obtain ⟨h1, h2⟩ := chunkWindowEnd_bounds cleaned chunkSize start hcs hstart
  have hc := chunkContentAt_length cleaned chunkSize start hcs hstart
  unfold chunkNextStart
  set e := chunkWindowEnd cleaned chunkSize start
  set content := chunkContentAt cleaned chunkSize start
  by_cases hguard : e - overlap ≤ (if accNonempty then e - content.length else 0)
  · rw [if_pos hguard]; exact h1
  · rw [if_neg hguard]
    rcases hinv with h | h
    · subst h
      simp only [if_pos] at hguard
      omega
    · rcases accNonempty with _ | _ <;> simp at hguard <;> omega

/-- With fuel exceeding the remaining distance, the loop completes. -/
theorem chunkLoopF_isSome (cleaned : List Char) (chunkSize overlap : Nat)
    (hcs : 1 ≤ chunkSize) :
    ∀ (fuel start idx : Nat) (acc : List TextChunk),
      (acc ≠ [] ∨ (start = 0 ∧ chunkContentAt cleaned chunkSize 0 ≠ [])) →
      cleaned.length - start < fuel →
      (chunkLoopF cleaned chunkSize overlap fuel start idx acc).isSome = true := by
  intro fuel
  induction fuel with
  | zero => intro start idx acc _ hfuel; omega
  | succ fuel ih =>
    intro start idx acc hinv hfuel
    rw [chunkLoopF]
    by_cases hlt : start < cleaned.length
    · rw [if_pos hlt]
      have hacc'ne : chunkPush cleaned chunkSize start idx acc ≠ [] := by
        rcases hinv with h | ⟨hs, hc0⟩
        · unfold chunkPush
          by_cases hp : 0 < (chunkContentAt cleaned chunkSize start).length
          · rw [if_pos hp]; simp
          · rw [if_neg hp]; exact h
        · subst hs
          unfold chunkPush
          rw [if_pos (List.length_pos.mpr hc0)]
          simp
      have hprog : start < chunkNextStart cleaned chunkSize overlap start
          (decide (0 < (chunkPush cleaned chunkSize start idx acc).length)) := by
        apply chunkNextStart_progress _ _ _ _ _ hcs hlt
        left
        simp [List.length_pos.mpr hacc'ne]
      apply ih
      · left; exact hacc'ne
      · omega
    · rw [if_neg hlt]
      rfl

/-- The first window of trimmed non-empty text yields non-empty content. -/
theorem chunkContentAt_zero_ne (cleaned : List Char) (chunkSize : Nat)
    (hcs : 1 ≤ chunkSize) (hne : cleaned ≠ [])
    (htrim : cleaned.dropWhile jsWhitespace = cleaned) :
    chunkContentAt cleaned chunkSize 0 ≠ [] := by
  obtain ⟨a, t, hc⟩ := List.exists_cons_of_ne_nil hne
  subst hc
  have hlen : 0 < (a :: t).length := by simp
  obtain ⟨h1, h2⟩ := chunkWindowEnd_bounds (a :: t) chunkSize 0 hcs hlen
  have hwa : jsWhitespace a = false :=
    head_not_ws_of_dropWhile_self htrim
  have hmem : a ∈ jsSlice (a :: t) 0 (chunkWindowEnd (a :: t) chunkSize 0) := by
    unfold jsSlice
    rw [List.drop_zero, Nat.sub_zero]
    rcases he : chunkWindowEnd (a :: t) chunkSize 0 with _ | k
    · omega
    · simp [List.take_succ_cons]
  have hin : a ∈ chunkContentAt (a :: t) chunkSize 0 :=
    mem_jsTrim_of_neg hwa hmem
  intro hnil
  rw [hnil] at hin
  cases hin

/-- `C6`: for every input and every `chunkSize ≥ 1`, the chunker
terminates — the guarded start-advance strictly increases the window
start on each loop iteration, and the loop completes within the fuel. -/
theorem C6_chunker_terminates (text : List Char) (chunkSize overlap : Nat)
    (hcs : 1 ≤ chunkSize) :
    (∀ start accNonempty, start < (cleanedText text).length →
        (accNonempty = true ∨ start = 0) →
        start < chunkNextStart (cleanedText text) chunkSize overlap start accNonempty) ∧
    (splitTextIntoChunks text chunkSize overlap).isSome = true := by
  constructor
  · intro start accNonempty hstart hinv
    exact chunkNextStart_progress _ _ _ _ _ hcs hstart hinv
  · unfold splitTextIntoChunks
    by_cases h1 : text.length = 0 ∨ (jsTrim text).length = 0
    · rw [if_pos h1]; rfl
    · rw [if_neg h1]
      simp only []
      by_cases h2 : (cleanedText text).length ≤ chunkSize
      · rw [if_pos h2]; rfl
      · rw [if_neg h2]
        apply chunkLoopF_isSome _ _ _ hcs
        · right
          refine ⟨rfl, ?_⟩
          apply chunkContentAt_zero_ne _ _ hcs
          · intro hnil
            rw [hnil] at h2
            simp at h2
          · exact jsTrim_dropWhile (collapseNewlines text)
        · omega

/-- Witness for `C6` at `text = "hi a"`, `chunkSize = 2`, `overlap = 1`. -/
theorem C6_chunker_terminates_witness :
    (1 ≤ 2) ∧
    ((∀ start accNonempty, start < (cleanedText ['h', 'i', ' ', 'a']).length →
        (accNonempty = true ∨ start = 0) →
        start < chunkNextStart (cleanedText ['h', 'i', ' ', 'a']) 2 1 start accNonempty) ∧
      (splitTextIntoChunks ['h', 'i', ' ', 'a'] 2 1).isSome = true) :=
  ⟨by decide, C6_chunker_terminates ['h', 'i', ' ', 'a'] 2 1 (by decide)⟩

/-- `C7` (amended): an input with some non-whitespace character whose
cleaned text fits in `chunkSize` yields exactly the one whole-text chunk
with index `0`. -/
theorem C7_single_chunk (text : List Char) (chunkSize overlap : Nat)
    (hne : ¬(text.length = 0 ∨ (jsTrim text).length = 0))
    (hsize : (cleanedText text).length ≤ chunkSize) :
    splitTextIntoChunks text chunkSize overlap =
      some [⟨0, cleanedText text, (cleanedText text).length⟩] := by
  unfold splitTextIntoChunks
  rw [if_neg hne]
  simp only []
  rw [if_pos hsize]

/-- Witness for the amended `C7` at `text = "hi"`. -/
theorem C7_single_chunk_witness :
    (¬((['h', 'i'] : List Char).length = 0 ∨ (jsTrim ['h', 'i']).length = 0) ∧
      (cleanedText ['h', 'i']).length ≤ 800) ∧
    splitTextIntoChunks ['h', 'i'] 800 100 =
      some [⟨0, cleanedText ['h', 'i'], (cleanedText ['h', 'i']).length⟩] :=
  ⟨⟨by decide, by decide⟩, C7_single_chunk ['h', 'i'] 800 100 (by decide) (by decide)⟩

/-- Counterexample to `C7` as stated: the whitespace-only input `" "` has
cleaned length `0 ≤ chunkSize`, yet the chunker returns zero chunks, not
one. -/
theorem C7_counterexample :
    (cleanedText [' ']).length ≤ 800 ∧
    splitTextIntoChunks [' '] 800 100 = some [] ∧
    ([] : List TextChunk).length ≠ 1 := by decide

/-- Everything the loop appends is a freshly indexed, trimmed, non-empty
chunk whose `charCount` is its content length. -/
theorem chunkLoopF_spec (cleaned : List Char) (chunkSize overlap : Nat) :
    ∀ (fuel start idx : Nat) (acc out : List TextChunk),
      chunkLoopF cleaned chunkSize overlap fuel start idx acc = some out →
      ∃ rest, out = acc ++ rest ∧
        rest.map (fun tc => tc.index) = List.range' idx rest.length ∧
        ∀ tc ∈ rest, tc.content ≠ [] ∧ jsTrim tc.content = tc.content ∧
          tc.charCount = tc.content.length := by
  intro fuel
  induction fuel with
  | zero =>
    intro start idx acc out h
    rw [chunkLoopF] at h
    by_cases hlt : start < cleaned.length
    · rw [if_pos hlt] at h; cases h
    · rw [if_neg hlt] at h
      obtain rfl : acc = out := Option.some.inj h
      exact ⟨[], by simp, rfl, by intro tc htc; cases htc⟩
  | succ fuel ih =>
    intro start idx acc out h
    rw [chunkLoopF] at h
    by_cases hlt : start < cleaned.length
    · rw [if_pos hlt] at h
      obtain ⟨rest', hout, hmap, hprops⟩ := ih _ _ _ _ h
      by_cases hp : 0 < (chunkContentAt cleaned chunkSize start).length
      · rw [chunkPush, if_pos hp] at hout
        rw [chunkNextIdx, if_pos hp] at hmap
        refine ⟨⟨idx, chunkContentAt cleaned chunkSize start,
            (chunkContentAt cleaned chunkSize start).length⟩ :: rest', ?_, ?_, ?_⟩
        · rw [hout, List.append_assoc]
          rfl
        · show idx :: rest'.map (fun tc => tc.index) =
            List.range' idx (rest'.length + 1)
          rw [hmap]
          rfl
        · intro tc htc
          rcases List.mem_cons.mp htc with rfl | htc'
          · refine ⟨?_, ?_, rfl⟩
            · intro hnil
              have hnil' : chunkContentAt cleaned chunkSize start = [] := hnil
              rw [hnil'] at hp
              cases hp
            · show jsTrim (chunkContentAt cleaned chunkSize start) = _
              unfold chunkContentAt
              exact jsTrim_jsTrim _
          · exact hprops tc htc'
      · rw [chunkPush, if_neg hp] at hout
        rw [chunkNextIdx, if_neg hp] at hmap
        exact ⟨rest', hout, hmap, hprops⟩
    · rw [if_neg hlt] at h
      obtain rfl : acc = out := Option.some.inj h
      exact ⟨[], by simp, rfl, by intro tc htc; cases htc⟩

theorem cleanedText_ne_nil {text : List Char} (h : jsTrim text ≠ []) :
    cleanedText text ≠ [] := by
  have hex : ∃ c ∈ text, jsWhitespace c = false := by
    by_contra hall
    push_neg at hall
    apply h
    rw [jsTrim_eq_nil_iff]
    intro c hc
    have := hall c hc
    simpa using this
  obtain ⟨c, hct, hcw⟩ := hex
  have h1 : c ∈ collapseNewlines text := mem_collapseNewlines_of_not_ws hcw hct
  have h2 : c ∈ cleanedText text := mem_jsTrim_of_neg hcw h1
  intro hnil
  rw [hnil] at h2
  cases h2

/-- `C10`: every chunker output has gap-free indices `0, 1, …, k−1`,
non-empty fully-trimmed contents, and `charCount = content.length ≥ 1`. -/
theorem C10_output_invariants (text : List Char) (chunkSize overlap : Nat)
    (out : List TextChunk)
    (h : splitTextIntoChunks text chunkSize overlap = some out) :
    out.map (fun tc => tc.index) = List.range out.length ∧
    ∀ tc ∈ out, tc.content ≠ [] ∧ jsTrim tc.content = tc.content ∧
      tc.charCount = tc.content.length ∧ 1 ≤ tc.charCount := by
  unfold splitTextIntoChunks at h
  by_cases h1 : text.length = 0 ∨ (jsTrim text).length = 0
  · rw [if_pos h1] at h
    obtain rfl : [] = out := Option.some.inj h
    exact ⟨rfl, by intro tc htc; cases htc⟩
  · rw [if_neg h1] at h
    simp only [] at h
    by_cases h2 : (cleanedText text).length ≤ chunkSize
    · rw [if_pos h2] at h
      obtain rfl : [(⟨0, cleanedText text, (cleanedText text).length⟩ : TextChunk)] = out :=
        Option.some.inj h
      have hcne : cleanedText text ≠ [] := by
        apply cleanedText_ne_nil
        intro hnil
        exact h1 (Or.inr (by rw [hnil]; rfl))
      refine ⟨rfl, ?_⟩
      intro tc htc
      rcases List.mem_cons.mp htc with rfl | htc'
      · refine ⟨hcne, ?_, rfl, ?_⟩
        · show jsTrim (cleanedText text) = _
          unfold cleanedText
          exact jsTrim_jsTrim _
        · show 1 ≤ (cleanedText text).length
          have := List.length_pos.mpr hcne
          omega
      · cases htc'
    · rw [if_neg h2] at h
      obtain ⟨rest, hout, hmap, hprops⟩ := chunkLoopF_spec _ _ _ _ _ _ _ _ h
      rw [List.nil_append] at hout
      subst hout
      refine ⟨by rw [hmap, List.range_eq_range'], ?_⟩
      intro tc htc
      obtain ⟨hne, htr, hcc⟩ := hprops tc htc
      refine ⟨hne, htr, hcc, ?_⟩
      rw [hcc]
      have := List.length_pos.mpr hne
      omega

/-- Witness for `C10` at `text = "hi"`. -/
theorem C10_output_invariants_witness :
    (splitTextIntoChunks ['h', 'i'] 800 100 =
      some [⟨0, ['h', 'i'], 2⟩]) ∧
    ([(⟨0, ['h', 'i'], 2⟩ : TextChunk)].map (fun tc => tc.index) =
        List.range [(⟨0, ['h', 'i'], 2⟩ : TextChunk)].length ∧
      ∀ tc ∈ [(⟨0, ['h', 'i'], 2⟩ : TextChunk)], tc.content ≠ [] ∧
        jsTrim tc.content = tc.content ∧
        tc.charCount = tc.content.length ∧ 1 ≤ tc.charCount) :=
  ⟨by decide, C10_output_invariants ['h', 'i'] 800 100 _ (by decide)⟩

/-- The next window start never goes past the current window end. -/
theorem chunkNextStart_le (cleaned : List Char) (chunkSize overlap start : Nat)
    (accNonempty : Bool) :
    chunkNextStart cleaned chunkSize overlap start accNonempty ≤
      chunkWindowEnd cleaned chunkSize start := by
  unfold chunkNextStart
  by_cases hguard : chunkWindowEnd cleaned chunkSize start - overlap ≤
      (if accNonempty then chunkWindowEnd cleaned chunkSize start -
        (chunkContentAt cleaned chunkSize start).length else 0)
  · rw [if_pos hguard]
  · rw [if_neg hguard]
    omega

/-- Loop invariant: every non-whitespace character of the already-consumed
prefix sits in some accumulated chunk; at exit this covers all of
`cleaned`. -/
theorem chunkLoopF_cover (cleaned : List Char) (chunkSize overlap : Nat)
    (hcs : 1 ≤ chunkSize) :
    ∀ (fuel start idx : Nat) (acc out : List TextChunk),
      chunkLoopF cleaned chunkSize overlap fuel start idx acc = some out →
      (∀ c ∈ cleaned.take start, jsWhitespace c = false → ∃ tc ∈ acc, c ∈ tc.content) →
      ∀ c ∈ cleaned, jsWhitespace c = false → ∃ tc ∈ out, c ∈ tc.content := by
  intro fuel
  induction fuel with
  | zero =>
    intro start idx acc out h hpre c hc hw
    rw [chunkLoopF] at h
    by_cases hlt : start < cleaned.length
    · rw [if_pos hlt] at h; cases h
    · rw [if_neg hlt] at h
      obtain rfl : acc = out := Option.some.inj h
      apply hpre c _ hw
      rw [List.take_of_length_le (by omega)]
      exact hc
  | succ fuel ih =>
    intro start idx acc out h hpre c hc hw
    rw [chunkLoopF] at h
    by_cases hlt : start < cleaned.length
    · rw [if_pos hlt] at h
      refine ih _ _ _ _ h ?_ c hc hw
      intro c' hc' hw'
      obtain ⟨h1, h2⟩ := chunkWindowEnd_bounds cleaned chunkSize start hcs hlt
      have hs2 : chunkNextStart cleaned chunkSize overlap start
          (decide (0 < (chunkPush cleaned chunkSize start idx acc).length)) ≤
            chunkWindowEnd cleaned chunkSize start :=
        chunkNextStart_le _ _ _ _ _
      have hce : c' ∈ cleaned.take (chunkWindowEnd cleaned chunkSize start) := by
        have : cleaned.take (chunkNextStart cleaned chunkSize overlap start
            (decide (0 < (chunkPush cleaned chunkSize start idx acc).length))) =
            (cleaned.take (chunkWindowEnd cleaned chunkSize start)).take
              (chunkNextStart cleaned chunkSize overlap start
                (decide (0 < (chunkPush cleaned chunkSize start idx acc).length))) := by
          rw [List.take_take, min_eq_left hs2]
        rw [this] at hc'
        exact List.take_subset _ _ hc'
      have hsplit : cleaned.take (chunkWindowEnd cleaned chunkSize start) =
          cleaned.take start ++ jsSlice cleaned start (chunkWindowEnd cleaned chunkSize start) := by
        unfold jsSlice
        rw [← List.take_add]
        congr 1
        omega
      rw [hsplit] at hce
      rcases List.mem_append.mp hce with hin | hin
      · obtain ⟨tc, htc, hctc⟩ := hpre c' hin hw'
        refine ⟨tc, ?_, hctc⟩
        unfold chunkPush
        by_cases hp : 0 < (chunkContentAt cleaned chunkSize start).length
        · rw [if_pos hp]; exact List.mem_append_left _ htc
        · rw [if_neg hp]; exact htc
      · have hinc : c' ∈ chunkContentAt cleaned chunkSize start :=
          mem_jsTrim_of_neg hw' hin
        have hp : 0 < (chunkContentAt cleaned chunkSize start).length :=
          List.length_pos.mpr (List.ne_nil_of_mem hinc)
        refine ⟨⟨idx, chunkContentAt cleaned chunkSize start,
          (chunkContentAt cleaned chunkSize start).length⟩, ?_, hinc⟩
        unfold chunkPush
        rw [if_pos hp]
        simp
    · rw [if_neg hlt] at h
      obtain rfl : acc = out := Option.some.inj h
      apply hpre c _ hw
      rw [List.take_of_length_le (by omega)]
      exact hc

/-- `C5` (amended): every non-whitespace character of the cleaned text
appears in some returned chunk, and every `charCount` equals its
content's length.  (Boundary whitespace can be trimmed away entirely —
see the counterexample for the unamended claim.) -/
theorem C5_coverage (text : List Char) (chunkSize overlap : Nat)
    (hcs : 1 ≤ chunkSize) (out : List TextChunk)
    (h : splitTextIntoChunks text chunkSize overlap = some out) :
    (∀ c ∈ cleanedText text, jsWhitespace c = false → ∃ tc ∈ out, c ∈ tc.content) ∧
    ∀ tc ∈ out, tc.charCount = tc.content.length := by
  unfold splitTextIntoChunks at h
  by_cases h1 : text.length = 0 ∨ (jsTrim text).length = 0
  · rw [if_pos h1] at h
    obtain rfl : [] = out := Option.some.inj h
    have hall : ∀ x ∈ text, jsWhitespace x = true := by
      rcases h1 with h1 | h1
      · intro x hx
        rw [List.length_eq_zero.mp h1] at hx
        cases hx
      · have := (jsTrim_eq_nil_iff text).mp (List.length_eq_zero.mp h1)
        exact this
    refine ⟨?_, by intro tc htc; cases htc⟩
    intro c hc hw
    exfalso
    have hcol : c ∈ collapseNewlines text := jsTrim_subset _ hc
    have := ws_of_mem_collapseNewlines hcol hall
    rw [this] at hw
    cases hw
  · rw [if_neg h1] at h
    simp only [] at h
    by_cases h2 : (cleanedText text).length ≤ chunkSize
    · rw [if_pos h2] at h
      obtain rfl : [(⟨0, cleanedText text, (cleanedText text).length⟩ : TextChunk)] = out :=
        Option.some.inj h
      refine ⟨?_, ?_⟩
      · intro c hc _
        exact ⟨_, List.mem_cons_self _ _, hc⟩
      · intro tc htc
        rcases List.mem_cons.mp htc with rfl | htc'
        · rfl
        · cases htc'
    · rw [if_neg h2] at h
      refine ⟨?_, ?_⟩
      · apply chunkLoopF_cover _ _ _ hcs _ _ _ _ _ h
        intro c hc _
        rw [List.take_zero] at hc
        cases hc
      · obtain ⟨rest, hout, _, hprops⟩ := chunkLoopF_spec _ _ _ _ _ _ _ _ h
        rw [List.nil_append] at hout
        subst hout
        intro tc htc
        exact (hprops tc htc).2.2

/-- Witness for the amended `C5` at `text = "a b"`. -/
theorem C5_coverage_witness :
    (1 ≤ 800 ∧
      splitTextIntoChunks ['a', ' ', 'b'] 800 100 = some [⟨0, ['a', ' ', 'b'], 3⟩]) ∧
    ((∀ c ∈ cleanedText ['a', ' ', 'b'], jsWhitespace c = false →
        ∃ tc ∈ [(⟨0, ['a', ' ', 'b'], 3⟩ : TextChunk)], c ∈ tc.content) ∧
      ∀ tc ∈ [(⟨0, ['a', ' ', 'b'], 3⟩ : TextChunk)], tc.charCount = tc.content.length) :=
  ⟨⟨by decide, by decide⟩,
    C5_coverage ['a', ' ', 'b'] 800 100 (by decide) _ (by decide)⟩

/-- The input refuting `C5` as stated, at the default chunker parameters:
one letter, 900 spaces, 700 letters. -/
def c5Text : List Char :=
  'a' :: (List.replicate 900 ' ' ++ List.replicate 700 'b')

set_option maxRecDepth 10000 in
/-- Counterexample to `C5` as stated: the space character occurs in the
cleaned input but in no returned chunk — boundary trimming drops it from
every window. -/
theorem C5_counterexample :
    (splitTextIntoChunks c5Text 800 100).isSome = true ∧
    (' ' ∈ cleanedText c5Text) ∧
    ∀ tc ∈ (splitTextIntoChunks c5Text 800 100).getD [], ' ' ∉ tc.content := by
  decide

/-! ## Selector lemmas -/

theorem selectLoop_totalChars (maxChunks maxChars : Nat) :
    ∀ (l : List RetrievedChunk) (n t : Nat), t ≤ maxChars →
      t + totalChars (selectLoop maxChunks maxChars l n t) ≤ maxChars := by
  intro l
  induction l with
  | nil => intro n t h; simpa [selectLoop, totalChars] using h
  | cons c rest ih =>
    intro n t h
    rw [selectLoop]
    by_cases h1 : maxChunks ≤ n
    · rw [if_pos h1]; simpa [totalChars] using h
    · rw [if_neg h1]
      by_cases h2 : maxChars < t + c.content.length
      · rw [if_pos h2]; simpa [totalChars] using h
      · rw [if_neg h2]
        by_cases h3 : (scoreIsZero c.score && decide (0 < n)) = true
        · rw [if_pos h3]; simpa [totalChars] using h
        · rw [if_neg h3]
          have := ih (n + 1) (t + c.content.length) (by omega)
          simp only [totalChars, List.map_cons, List.sum_cons] at this ⊢
          omega

theorem selectLoop_length (maxChunks maxChars : Nat) :
    ∀ (l : List RetrievedChunk) (n t : Nat),
      (selectLoop maxChunks maxChars l n t).length ≤ maxChunks - n := by
  intro l
  induction l with
  | nil => intro n t; simp [selectLoop]
  | cons c rest ih =>
    intro n t
    rw [selectLoop]
    by_cases h1 : maxChunks ≤ n
    · rw [if_pos h1]; simp
    · rw [if_neg h1]
      by_cases h2 : maxChars < t + c.content.length
      · rw [if_pos h2]; simp
      · rw [if_neg h2]
        by_cases h3 : (scoreIsZero c.score && decide (0 < n)) = true
        · rw [if_pos h3]; simp
        · rw [if_neg h3]
          have := ih (n + 1) (t + c.content.length)
          simp only [List.length_cons]
          omega

/-- Once something has been selected, no further zero-score chunk is
accepted. -/
theorem selectLoop_tail_nonzero (maxChunks maxChars : Nat) :
    ∀ (l : List RetrievedChunk) (n t : Nat), 1 ≤ n →
      ∀ x ∈ selectLoop maxChunks maxChars l n t, scoreIsZero x.score = false := by
  intro l
  induction l with
  | nil => intro n t _ x hx; rw [selectLoop] at hx; cases hx
  | cons c rest ih =>
    intro n t hn x hx
    rw [selectLoop] at hx
    by_cases h1 : maxChunks ≤ n
    · rw [if_pos h1] at hx; cases hx
    · rw [if_neg h1] at hx
      by_cases h2 : maxChars < t + c.content.length
      · rw [if_pos h2] at hx; cases hx
      · rw [if_neg h2] at hx
        by_cases h3 : (scoreIsZero c.score && decide (0 < n)) = true
        · rw [if_pos h3] at hx; cases hx
        · rw [if_neg h3] at hx
          rcases List.mem_cons.mp hx with rfl | hx'
          · have hdn : decide (0 < n) = true := by simpa using hn
            rw [hdn, Bool.and_true] at h3
            simpa using h3
          · exact ih (n + 1) _ (by omega) x hx'

/-- The first loop step from an empty selection: either nothing is
accepted, or the head is accepted and the loop continues from count 1. -/
theorem selectLoop_zero_structure (maxChunks maxChars : Nat)
    (l : List RetrievedChunk) (t : Nat) :
    selectLoop maxChunks maxChars l 0 t = [] ∨
    ∃ c rest, l = c :: rest ∧ ¬ maxChars < t + c.content.length ∧
      selectLoop maxChunks maxChars l 0 t =
        c :: selectLoop maxChunks maxChars rest 1 (t + c.content.length) := by
  cases l with
  | nil => left; rfl
  | cons c rest =>
    rw [selectLoop]
    by_cases h1 : maxChunks ≤ 0
    · left; rw [if_pos h1]
    · rw [if_neg h1]
      by_cases h2 : maxChars < t + c.content.length
      · left; rw [if_pos h2]
      · rw [if_neg h2]
        rw [if_neg (by simp)]
        right
        exact ⟨c, rest, rfl, h2, rfl⟩

/-- When everything remaining has score zero and something was already
selected, the loop stops at once. -/
theorem selectLoop_all_zero (maxChunks maxChars : Nat)
    (l : List RetrievedChunk) (n t : Nat) (hn : 1 ≤ n)
    (hz : ∀ x ∈ l, scoreIsZero x.score = true) :
    selectLoop maxChunks maxChars l n t = [] := by
  cases l with
  | nil => rfl
  | cons c rest =>
    rw [selectLoop]
    by_cases h1 : maxChunks ≤ n
    · rw [if_pos h1]
    · rw [if_neg h1]
      by_cases h2 : maxChars < t + c.content.length
      · rw [if_pos h2]
      · rw [if_neg h2]
        rw [if_pos (by
          rw [hz c (List.mem_cons_self _ _)]
          simpa using hn)]

theorem fbInner_spec (fileNameMap : Nat → Option (List Char)) (maxChars : Nat) :
    ∀ (g : List ChunkRow) (t : Nat), t ≤ maxChars →
      (fbInner fileNameMap maxChars g t).2 =
        t + totalChars (fbInner fileNameMap maxChars g t).1 ∧
      (fbInner fileNameMap maxChars g t).2 ≤ maxChars ∧
      (fbInner fileNameMap maxChars g t).1.length ≤ g.length := by
  intro g
  induction g with
  | nil => intro t h; exact ⟨by simp [fbInner, totalChars], h, by simp [fbInner]⟩
  | cons c rest ih =>
    intro t h
    rw [fbInner]
    by_cases hb : maxChars < t + c.content.length
    · rw [if_pos hb]
      exact ⟨by simp [totalChars], h, by simp⟩
    · rw [if_neg hb]
      obtain ⟨ih1, ih2, ih3⟩ := ih (t + c.content.length) (by omega)
      refine ⟨?_, ih2, ?_⟩
      · simp only [totalChars, List.map_cons, List.sum_cons] at ih1 ⊢
        omega
      · simp only [List.length_cons]
        omega

theorem fbOuter_spec (fileNameMap : Nat → Option (List Char)) (maxChars : Nat) :
    ∀ (gs : List (List ChunkRow)) (t : Nat), t ≤ maxChars →
      t + totalChars (fbOuter fileNameMap maxChars gs t) ≤ maxChars ∧
      (fbOuter fileNameMap maxChars gs t).length ≤ (gs.map List.length).sum := by
  intro gs
  induction gs with
  | nil => intro t h; exact ⟨by simpa [fbOuter, totalChars] using h, by simp [fbOuter]⟩
  | cons g rest ih =>
    intro t h
    rw [fbOuter]
    obtain ⟨hi1, hi2, _⟩ := fbInner_spec fileNameMap maxChars g t h
    obtain ⟨ho1, ho2⟩ := ih (fbInner fileNameMap maxChars g t).2 hi2
    constructor
    · simp only [totalChars, List.map_append, List.sum_append] at ho1 ⊢
      simp only [totalChars] at hi1
      omega
    · have hlen := (fbInner_spec fileNameMap maxChars g t h).2.2
      simp only [List.length_append, List.map_cons, List.sum_cons]
      omega

theorem sum_length_le_three (L : List (List ChunkRow)) (h : ∀ g ∈ L, g.length ≤ 3) :
    (L.map List.length).sum ≤ 3 * L.length := by
  induction L with
  | nil => simp
  | cons g rest ih =>
    simp only [List.map_cons, List.sum_cons, List.length_cons]
    have h1 := h g (List.mem_cons_self _ _)
    have h2 := ih (fun x hx => h x (List.mem_cons_of_mem _ hx))
    omega

theorem fallbackSelect_bounds (fileNameMap : Nat → Option (List Char))
    (maxChars : Nat) (allChunks : List ChunkRow) :
    totalChars (fallbackSelect fileNameMap maxChars allChunks) ≤ maxChars ∧
    (fallbackSelect fileNameMap maxChars allChunks).length ≤
      3 * (sortedFileIds allChunks).length := by
  unfold fallbackSelect
  obtain ⟨h1, h2⟩ := fbOuter_spec fileNameMap maxChars
    ((sortedFileIds allChunks).map (fun f =>
      (List.insertionSort (fun a b => idxLE a b = true)
        (allChunks.filter (fun r => r.knowledgeFileId = f))).take 3))
    0 (Nat.zero_le _)
  constructor
  · omega
  · calc (fbOuter fileNameMap maxChars _ 0).length
        ≤ _ := h2
      _ ≤ 3 * ((sortedFileIds allChunks).map (fun f =>
            (List.insertionSort (fun a b => idxLE a b = true)
              (allChunks.filter (fun r => r.knowledgeFileId = f))).take 3)).length := by
          apply sum_length_le_three
          intro g hg
          rcases List.mem_map.mp hg with ⟨f, _, rfl⟩
          simpa using List.length_take_le _ _
      _ = 3 * (sortedFileIds allChunks).length := by rw [List.length_map]

instance {e a : Type} [DecidableEq e] [DecidableEq a] : DecidableEq (Except e a) := by
  intro x y
  cases x with
  | error ex =>
    cases y with
    | error ey =>
      by_cases h : ex = ey
      · exact isTrue (by rw [h])
      · exact isFalse (by intro hc; injection hc; contradiction)
    | ok vy => exact isFalse (by intro hc; cases hc)
  | ok vx =>
    cases y with
    | error ey => exact isFalse (by intro hc; cases hc)
    | ok vy =>
      by_cases h : vx = vy
      · exact isTrue (by rw [h])
      · exact isFalse (by intro hc; injection hc; contradiction)

theorem fetchedChunks_ne_nil_ids {rows : List ChunkRow} {ids : List Nat}
    (hne : fetchedChunks (some rows) ids ≠ []) : ¬ ids.length = 0 := by
  intro h0
  apply hne
  unfold fetchedChunks
  rw [List.length_eq_zero.mp h0]
  simp

/-- Unfolding of `retrieveRelevantChunks` on an available store with a
non-empty fetch: the ranked selection, or the fallback when it selected
nothing. -/
theorem retrieve_some_unfold (rows : List ChunkRow) (ids : List Nat)
    (query : List Char) (fileNameMap : Nat → Option (List Char))
    (maxChunks maxChars : Nat)
    (hne : fetchedChunks (some rows) ids ≠ []) :
    retrieveRelevantChunks (some rows) ids query fileNameMap maxChunks maxChars =
      (if (selectorRanked (some rows) ids query fileNameMap maxChunks maxChars).length = 0
       then Except.ok (fallbackSelect fileNameMap maxChars (fetchedChunks (some rows) ids))
       else Except.ok (selectorRanked (some rows) ids query fileNameMap maxChunks maxChars)) := by
  have hids := fetchedChunks_ne_nil_ids hne
  have hlen : ¬ (rows.filter (fun r => r.knowledgeFileId ∈ ids)).length = 0 := by
    intro h0
    apply hne
    unfold fetchedChunks
    simpa using List.length_eq_zero.mp h0
  unfold retrieveRelevantChunks
  rw [if_neg hids]
  simp only []
  rw [if_neg hlen]
  have hpos : decide (0 < (rows.filter (fun r => r.knowledgeFileId ∈ ids)).length) = true := by
    simp only [decide_eq_true_eq]
    omega
  by_cases hsel : (selectorRanked (some rows) ids query fileNameMap maxChunks maxChars).length = 0
  · rw [if_pos hsel]
    rw [if_pos (by
      show (decide _ && _) = true
      rw [hpos, Bool.and_true]
      simpa [selectorRanked, selectorSorted, fetchedChunks] using hsel)]
    rfl
  · rw [if_neg hsel]
    rw [if_neg (by
      show ¬ (decide _ && _) = true
      rw [hpos, Bool.and_true]
      simpa [selectorRanked, selectorSorted, fetchedChunks] using hsel)]
    rfl

/-- When the fetch is empty (or the id list is), the result is `ok []`. -/
theorem retrieve_some_empty (rows : List ChunkRow) (ids : List Nat)
    (query : List Char) (fileNameMap : Nat → Option (List Char))
    (maxChunks maxChars : Nat)
    (hemp : fetchedChunks (some rows) ids = []) :
    retrieveRelevantChunks (some rows) ids query fileNameMap maxChunks maxChars =
      Except.ok [] := by
  unfold retrieveRelevantChunks
  by_cases hids : ids.length = 0
  · rw [if_pos hids]
  · rw [if_neg hids]
    simp only []
    rw [if_pos (by
      unfold fetchedChunks at hemp
      simp only [Option.getD] at hemp
      rw [hemp]
      rfl)]

/-- `C3` (amended): an unavailable store handle resolves successfully with
the empty list — a silent empty-result substitution, for every input. -/
theorem C3_unavailable_store (ids : List Nat) (query : List Char)
    (fileNameMap : Nat → Option (List Char)) (maxChunks maxChars : Nat) :
    retrieveRelevantChunks none ids query fileNameMap maxChunks maxChars =
      Except.ok [] := by
  unfold retrieveRelevantChunks
  by_cases hids : ids.length = 0
  · rw [if_pos hids]
  · rw [if_neg hids]

/-- Counterexample to `C3` as stated: with a non-empty document-id list
and an unreachable store handle, the call resolves with `ok []` — it is
not a failure. -/
theorem C3_counterexample :
    retrieveRelevantChunks none [1] ['a'] (fun _ => none) 20 6000 =
      Except.ok [] := by decide

/-- `C1` (amended): the character budget holds in both branches; the
chunk-count budget holds in the ranked branch, while the fallback branch
is bounded only by three chunks per fetched document. -/
theorem C1_budgets (db : Option (List ChunkRow)) (ids : List Nat)
    (query : List Char) (fileNameMap : Nat → Option (List Char))
    (maxChunks maxChars : Nat) (out : List RetrievedChunk)
    (h : retrieveRelevantChunks db ids query fileNameMap maxChunks maxChars =
      Except.ok out) :
    totalChars out ≤ maxChars ∧
    out.length ≤ max maxChunks (3 * (sortedFileIds (fetchedChunks db ids)).length) := by
  cases db with
  | none =>
    rw [C3_unavailable_store] at h
    obtain rfl : [] = out := by
      have := Except.ok.inj h
      exact this
    simp [totalChars]
  | some rows =>
    by_cases hemp : fetchedChunks (some rows) ids = []
    · rw [retrieve_some_empty _ _ _ _ _ _ hemp] at h
      obtain rfl : [] = out := Except.ok.inj h
      simp [totalChars]
    · rw [retrieve_some_unfold _ _ _ _ _ _ hemp] at h
      by_cases hsel : (selectorRanked (some rows) ids query fileNameMap maxChunks maxChars).length = 0
      · rw [if_pos hsel] at h
        obtain rfl : fallbackSelect fileNameMap maxChars (fetchedChunks (some rows) ids) = out :=
          Except.ok.inj h
        obtain ⟨h1, h2⟩ := fallbackSelect_bounds fileNameMap maxChars (fetchedChunks (some rows) ids)
        exact ⟨h1, le_max_of_le_right h2⟩
      · rw [if_neg hsel] at h
        obtain rfl : selectorRanked (some rows) ids query fileNameMap maxChunks maxChars = out :=
          Except.ok.inj h
        constructor
        · have := selectLoop_totalChars maxChunks maxChars
            (selectorSorted (some rows) ids query fileNameMap) 0 0 (Nat.zero_le _)
          simpa [selectorRanked] using this
        · apply le_max_of_le_left
          have := selectLoop_length maxChunks maxChars
            (selectorSorted (some rows) ids query fileNameMap) 0 0
          simp only [selectorRanked]
          omega

/-- Witness for the amended `C1` on a concrete store. -/
theorem C1_budgets_witness :
    (retrieveRelevantChunks (some [⟨1, 0, ['a', 'b', 'c']⟩]) [1] ['z', 'z']
        (fun _ => none) 20 6000 =
      Except.ok [⟨1, defaultFileName, 0, ['a', 'b', 'c'], (0, 1)⟩]) ∧
    (totalChars [⟨1, defaultFileName, 0, ['a', 'b', 'c'], (0, 1)⟩] ≤ 6000 ∧
      ([(⟨1, defaultFileName, 0, ['a', 'b', 'c'], (0, 1)⟩ : RetrievedChunk)]).length ≤
        max 20 (3 * (sortedFileIds (fetchedChunks
          (some [⟨1, 0, ['a', 'b', 'c']⟩]) [1])).length)) :=
  ⟨by decide,
    C1_budgets (some [⟨1, 0, ['a', 'b', 'c']⟩]) [1] ['z', 'z'] (fun _ => none)
      20 6000 _ (by decide)⟩

/-- The store contents refuting the `maxChunks` bound of `C1`: document 1
owns one oversized chunk, document 2 owns two small ones. -/
def c1Rows : List ChunkRow :=
  [⟨1, 0, List.replicate 20 'x'⟩, ⟨2, 0, ['a', 'b', 'c']⟩, ⟨2, 1, ['d', 'e', 'f']⟩]

/-- Counterexample to `C1` as stated: with `maxChunks = 1`,
`maxChars = 10`, the fallback branch returns 2 chunks. -/
theorem C1_counterexample :
    ((retrieveRelevantChunks (some c1Rows) [1, 2] ['z', 'z'] (fun _ => none)
        1 10).toOption.getD []).length = 2 ∧
    ¬ ((retrieveRelevantChunks (some c1Rows) [1, 2] ['z', 'z'] (fun _ => none)
        1 10).toOption.getD []).length ≤ 1 := by decide

/-- Every chunk scored against a query sharing no terms carries score
zero. -/
theorem sorted_all_zero (rows : List ChunkRow) (ids : List Nat) (query : List Char)
    (fileNameMap : Nat → Option (List Char))
    (hzero : ∀ r ∈ fetchedChunks (some rows) ids,
      ∀ t ∈ tokenize r.content, t ∉ tokenize query) :
    ∀ x ∈ selectorSorted (some rows) ids query fileNameMap,
      scoreIsZero x.score = true := by
  intro x hx
  have hx' : x ∈ (fetchedChunks (some rows) ids).map
      (mkRetrieved fileNameMap (tokenize query)) :=
    (List.perm_insertionSort _ _).mem_iff.mp hx
  obtain ⟨r, hr, rfl⟩ := List.mem_map.mp hx'
  show scoreIsZero (scoreParts (tokenize query) r.content) = true
  unfold scoreParts scoreIsZero
  rw [matchCount_eq_zero _ _ (hzero r hr)]
  simp

theorem selectorSorted_ne_nil (rows : List ChunkRow) (ids : List Nat)
    (query : List Char) (fileNameMap : Nat → Option (List Char))
    (hne : fetchedChunks (some rows) ids ≠ []) :
    selectorSorted (some rows) ids query fileNameMap ≠ [] := by
  intro h0
  apply hne
  have hlen := (List.perm_insertionSort
    (fun a b => chunkLE a b = true)
    ((fetchedChunks (some rows) ids).map (mkRetrieved fileNameMap (tokenize query)))).length_eq
  rw [show selectorSorted (some rows) ids query fileNameMap =
    List.insertionSort (fun a b => chunkLE a b = true)
      ((fetchedChunks (some rows) ids).map (mkRetrieved fileNameMap (tokenize query)))
    from rfl] at h0
  rw [h0] at hlen
  simp at hlen
  exact List.length_eq_zero.mp hlen.symm ▸ rfl

/-- `C2` (amended): with a non-empty fetch and a query sharing no term
with any chunk, the ranked phase itself accepts exactly the first chunk
in tie-break order (score 0) — provided `maxChunks ≥ 1` and that chunk
fits the character budget — and the per-document fallback never runs. -/
theorem C2_zero_overlap (rows : List ChunkRow) (ids : List Nat) (query : List Char)
    (fileNameMap : Nat → Option (List Char)) (maxChunks maxChars : Nat)
    (hne : fetchedChunks (some rows) ids ≠ [])
    (hzero : ∀ r ∈ fetchedChunks (some rows) ids,
      ∀ t ∈ tokenize r.content, t ∉ tokenize query)
    (hmc : 1 ≤ maxChunks)
    (hfit : ∀ c ∈ (selectorSorted (some rows) ids query fileNameMap).take 1,
      c.content.length ≤ maxChars) :
    retrieveRelevantChunks (some rows) ids query fileNameMap maxChunks maxChars =
      Except.ok ((selectorSorted (some rows) ids query fileNameMap).take 1) ∧
    (selectorSorted (some rows) ids query fileNameMap).take 1 ≠ [] ∧
    ∀ x ∈ (selectorSorted (some rows) ids query fileNameMap).take 1,
      scoreIsZero x.score = true := by
  have hallz := sorted_all_zero rows ids query fileNameMap hzero
  have hsne := selectorSorted_ne_nil rows ids query fileNameMap hne
  obtain ⟨c0, rest, hsorted⟩ := List.exists_cons_of_ne_nil hsne
  have htake : (selectorSorted (some rows) ids query fileNameMap).take 1 = [c0] := by
    rw [hsorted]
    rfl
  have hc0fit : c0.content.length ≤ maxChars := by
    apply hfit
    rw [htake]
    exact List.mem_cons_self _ _
  have hranked : selectorRanked (some rows) ids query fileNameMap maxChunks maxChars = [c0] := by
    show selectLoop maxChunks maxChars
      (selectorSorted (some rows) ids query fileNameMap) 0 0 = [c0]
    rw [hsorted, selectLoop]
    rw [if_neg (by omega)]
    rw [if_neg (by omega)]
    rw [if_neg (by simp)]
    rw [selectLoop_all_zero _ _ _ _ _ (by omega) (by
      intro x hx
      apply hallz
      rw [hsorted]
      exact List.mem_cons_of_mem _ hx)]
  refine ⟨?_, by rw [htake]; simp, ?_⟩
  · rw [retrieve_some_unfold _ _ _ _ _ _ hne]
    rw [if_neg (by rw [hranked]; simp)]
    rw [hranked, htake]
  · intro x hx
    exact hallz x (List.take_subset _ _ hx)

/-- Witness for the amended `C2` on a two-chunk store. -/
theorem C2_zero_overlap_witness :
    ((fetchedChunks (some [⟨1, 0, ['a', 'b', 'c']⟩, ⟨1, 1, ['d', 'e', 'f']⟩]) [1] ≠ []) ∧
      (∀ r ∈ fetchedChunks (some [⟨1, 0, ['a', 'b', 'c']⟩, ⟨1, 1, ['d', 'e', 'f']⟩]) [1],
        ∀ t ∈ tokenize r.content, t ∉ tokenize ['z', 'z']) ∧
      (1 ≤ 20) ∧
      (∀ c ∈ (selectorSorted (some [⟨1, 0, ['a', 'b', 'c']⟩, ⟨1, 1, ['d', 'e', 'f']⟩])
          [1] ['z', 'z'] (fun _ => none)).take 1, c.content.length ≤ 6000)) ∧
    (retrieveRelevantChunks (some [⟨1, 0, ['a', 'b', 'c']⟩, ⟨1, 1, ['d', 'e', 'f']⟩])
        [1] ['z', 'z'] (fun _ => none) 20 6000 =
      Except.ok ((selectorSorted (some [⟨1, 0, ['a', 'b', 'c']⟩, ⟨1, 1, ['d', 'e', 'f']⟩])
        [1] ['z', 'z'] (fun _ => none)).take 1) ∧
      (selectorSorted (some [⟨1, 0, ['a', 'b', 'c']⟩, ⟨1, 1, ['d', 'e', 'f']⟩])
        [1] ['z', 'z'] (fun _ => none)).take 1 ≠ [] ∧
      ∀ x ∈ (selectorSorted (some [⟨1, 0, ['a', 'b', 'c']⟩, ⟨1, 1, ['d', 'e', 'f']⟩])
        [1] ['z', 'z'] (fun _ => none)).take 1, scoreIsZero x.score = true) :=
  ⟨⟨by decide, by decide, by decide, by decide⟩,
    C2_zero_overlap [⟨1, 0, ['a', 'b', 'c']⟩, ⟨1, 1, ['d', 'e', 'f']⟩] [1] ['z', 'z']
      (fun _ => none) 20 6000 (by decide) (by decide) (by decide) (by decide)⟩

/-- Store contents for the `C2` counterexample: one document owning two
small chunks. -/
def c2Rows : List ChunkRow := [⟨1, 0, ['a', 'b', 'c']⟩, ⟨1, 1, ['d', 'e', 'f']⟩]

/-- Counterexample to `C2` as stated: with zero term overlap the Selector
returns one chunk (the ranked phase accepts the first zero-score chunk),
not the first-up-to-3-chunks-per-document sample the claim demands. -/
theorem C2_counterexample :
    ((retrieveRelevantChunks (some c2Rows) [1] ['z', 'z'] (fun _ => none)
        20 6000).toOption.getD []).map (fun c => c.chunkIndex) = [0] ∧
    (fallbackSelect (fun _ => none) 6000 c2Rows).map (fun c => c.chunkIndex) = [0, 1] ∧
    ([0] : List Nat) ≠ [0, 1] := by decide

/-- `C9`: the ranked phase accepts a zero-score chunk only in first
position (hence at most one); with `maxChunks ≥ 1`, a fitting top chunk
forces a non-empty ranked result (no fallback), and an empty ranked
result happens only when the top chunk alone exceeds `maxChars`. -/
theorem C9_zero_score_gate (rows : List ChunkRow) (ids : List Nat) (query : List Char)
    (fileNameMap : Nat → Option (List Char)) (maxChunks maxChars : Nat)
    (hne : fetchedChunks (some rows) ids ≠ []) (hmc : 1 ≤ maxChunks) :
    (∀ x ∈ (selectorRanked (some rows) ids query fileNameMap maxChunks maxChars).tail,
      scoreIsZero x.score = false) ∧
    (selectorRanked (some rows) ids query fileNameMap maxChunks maxChars).countP
      (fun x => scoreIsZero x.score) ≤ 1 ∧
    (∀ c, (selectorSorted (some rows) ids query fileNameMap).head? = some c →
      c.content.length ≤ maxChars →
      selectorRanked (some rows) ids query fileNameMap maxChunks maxChars ≠ [] ∧
      retrieveRelevantChunks (some rows) ids query fileNameMap maxChunks maxChars =
        Except.ok (selectorRanked (some rows) ids query fileNameMap maxChunks maxChars)) ∧
    ((selectorRanked (some rows) ids query fileNameMap maxChunks maxChars) = [] →
      ∃ c, (selectorSorted (some rows) ids query fileNameMap).head? = some c ∧
        maxChars < c.content.length) := by
  have hsne := selectorSorted_ne_nil rows ids query fileNameMap hne
  obtain ⟨c0, rest, hsorted⟩ := List.exists_cons_of_ne_nil hsne
  have hdef : selectorRanked (some rows) ids query fileNameMap maxChunks maxChars =
      selectLoop maxChunks maxChars
        (selectorSorted (some rows) ids query fileNameMap) 0 0 := rfl
  have htail : ∀ x ∈ (selectorRanked (some rows) ids query fileNameMap maxChunks maxChars).tail,
      scoreIsZero x.score = false := by
    rcases selectLoop_zero_structure maxChunks maxChars
      (selectorSorted (some rows) ids query fileNameMap) 0 with h | ⟨c, rest', _, _, heq⟩
    · rw [hdef, h]
      intro x hx
      cases hx
    · rw [hdef, heq]
      intro x hx
      exact selectLoop_tail_nonzero _ _ _ 1 _ (by omega) x hx
  refine ⟨htail, ?_, ?_, ?_⟩
  · cases hout : selectorRanked (some rows) ids query fileNameMap maxChunks maxChars with
    | nil => simp
    | cons y ys =>
      rw [List.countP_cons]
      have hzs : ys.countP (fun x => scoreIsZero x.score) = 0 := by
        rw [List.countP_eq_zero]
        intro x hx
        have := htail x (by rw [hout]; exact hx)
        simp [this]
      rw [hzs]
      split <;> omega
  · intro c hc hfit
    have hc0 : c = c0 := by
      rw [hsorted] at hc
      exact (Option.some.inj hc).symm ▸ rfl
    subst hc0
    have hranked : selectorRanked (some rows) ids query fileNameMap maxChunks maxChars =
        c :: selectLoop maxChunks maxChars rest 1 (0 + c.content.length) := by
      rw [hdef, hsorted, selectLoop]
      rw [if_neg (by omega)]
      rw [if_neg (by omega)]
      rw [if_neg (by simp)]
    constructor
    · rw [hranked]; simp
    · rw [retrieve_some_unfold _ _ _ _ _ _ hne]
      rw [if_neg (by rw [hranked]; simp)]
  · intro hranked
    rw [hdef, hsorted, selectLoop] at hranked
    rw [if_neg (by omega)] at hranked
    by_cases hb : maxChars < 0 + c0.content.length
    · exact ⟨c0, by rw [hsorted]; rfl, by omega⟩
    · rw [if_neg hb] at hranked
      rw [if_neg (by simp)] at hranked
      cases hranked

/-- Witness for `C9` on a one-chunk store with an overlapping query. -/
theorem C9_zero_score_gate_witness :
    ((fetchedChunks (some [⟨1, 0, ['a', 'b', 'c']⟩]) [1] ≠ []) ∧ 1 ≤ 20) ∧
    ((∀ x ∈ (selectorRanked (some [⟨1, 0, ['a', 'b', 'c']⟩]) [1] ['a', 'b', 'c']
        (fun _ => none) 20 6000).tail, scoreIsZero x.score = false) ∧
      (selectorRanked (some [⟨1, 0, ['a', 'b', 'c']⟩]) [1] ['a', 'b', 'c']
        (fun _ => none) 20 6000).countP (fun x => scoreIsZero x.score) ≤ 1 ∧
      (∀ c, (selectorSorted (some [⟨1, 0, ['a', 'b', 'c']⟩]) [1] ['a', 'b', 'c']
          (fun _ => none)).head? = some c →
        c.content.length ≤ 6000 →
        selectorRanked (some [⟨1, 0, ['a', 'b', 'c']⟩]) [1] ['a', 'b', 'c']
          (fun _ => none) 20 6000 ≠ [] ∧
        retrieveRelevantChunks (some [⟨1, 0, ['a', 'b', 'c']⟩]) [1] ['a', 'b', 'c']
          (fun _ => none) 20 6000 =
          Except.ok (selectorRanked (some [⟨1, 0, ['a', 'b', 'c']⟩]) [1] ['a', 'b', 'c']
            (fun _ => none) 20 6000)) ∧
      (selectorRanked (some [⟨1, 0, ['a', 'b', 'c']⟩]) [1] ['a', 'b', 'c']
          (fun _ => none) 20 6000 = [] →
        ∃ c, (selectorSorted (some [⟨1, 0, ['a', 'b', 'c']⟩]) [1] ['a', 'b', 'c']
          (fun _ => none)).head? = some c ∧ 6000 < c.content.length)) :=
  ⟨⟨by decide, by decide⟩,
    C9_zero_score_gate [⟨1, 0, ['a', 'b', 'c']⟩] [1] ['a', 'b', 'c'] (fun _ => none)
      20 6000 (by decide) (by decide)⟩

end K12
